import Mathlib

/-!
Verification of the python-assembling repository against its specification.

The development shallowly embeds the two engines of the repository:

* `general_searching.py` — a backtracking pattern-matching engine with scoped
  captures (namespace `GeneralSearching`);
* `basic_assembler.py` — a control-flow disassembler/assembler for CPython 3.10
  bytecode (namespace `BasicAssembler`).

Python generators are embedded as functions returning the full list of yielded
values together with the final state of the mutable `Captures` object.  Each
yielded value carries the captures state at the moment of the yield.  This
sequential semantics agrees with the lazy generator semantics of the source
because (as proved below, see `pmatch_frame`) every combinator restores the
capture-scope stack around each candidate, so a producer always resumes from
exactly the state it yielded in.  Potentially unbounded loops (`Repeat` with
`max=None`, the assembler's fixed-point loop) take an explicit fuel parameter;
fuel exhaustion models non-termination of the source.
-/

namespace GeneralSearching

/-- Capture names (`Any` keys in the source; strings in all uses). -/
abbrev CName := String

/-- A captured value: a single token (`DirectMatch`, `AnyOfMatch`,
`FunctionMatch` bind `stream[start]`) or a slice (`Any` binds
`stream[start:start+l]`). -/
inductive CapVal (T : Type) where
  | tok (t : T)
  | seq (s : List T)
deriving DecidableEq, Repr

/-- One Python dict, as an insertion-ordered association list. -/
abbrev PyDict (T : Type) := List (CName × CapVal T)

/-- Python `d[k] = v`: replaces the value in place if `k` is present
(keeping its position), appends otherwise. -/
def dictSet {T : Type} : PyDict T → CName → CapVal T → PyDict T
  | [], k, v => [(k, v)]
  | (k0, v0) :: rest, k, v =>
      if k0 = k then (k, v) :: rest else (k0, v0) :: dictSet rest k v

/-- Python `d.update(d2)`: sets every pair of `d2` into `d` in order. -/
def dictUpdate {T : Type} (d d2 : PyDict T) : PyDict T :=
  d2.foldl (fun acc kv => dictSet acc kv.1 kv.2) d

/-- The `Captures` store (general_searching.py:91-127): a `ChainMap` of
scopes.  `scopes.head` is the newest map; `ChainMap()` starts with one empty
map.  The `_keys` token list only enforces LIFO discipline dynamically; in the
embedding enter/exit are the push/pop themselves. -/
structure Captures (T : Type) where
  scopes : List (PyDict T)
deriving DecidableEq, Repr

/-- `Captures()`: a `ChainMap` holding a single empty dict. -/
def Captures.init (T : Type) : Captures T := ⟨[[]]⟩

/-- `Captures.enter` (line 96-103): push a fresh shadowing scope. -/
def Captures.enter {T : Type} (c : Captures T) : Captures T := ⟨[] :: c.scopes⟩

/-- `Captures.exit` (line 105-111): pop the newest scope
(`self._internal = self._internal.parents`). -/
def Captures.exit {T : Type} (c : Captures T) : Captures T := ⟨c.scopes.tail⟩

/-- `Captures.__setitem__` (line 117-118): `ChainMap` assignment writes into
the newest map.  The scope list is never empty in the source (`ChainMap()`
has one map); the `[]` case is unreachable and returns `c`. -/
def Captures.setItem {T : Type} (c : Captures T) (k : CName) (v : CapVal T) :
    Captures T :=
  match c.scopes with
  | [] => c
  | s :: rest => ⟨dictSet s k v :: rest⟩

/-- `Captures.maybe` (line 113-115). -/
def Captures.maybe {T : Type} (c : Captures T) (name : Option CName)
    (v : CapVal T) : Captures T :=
  match name with
  | none => c
  | some n => c.setItem n v

/-- `Captures.extend` (line 126-127): `ChainMap.update` writes each pair of
the mapping into the newest map. -/
def Captures.extend {T : Type} (c : Captures T) (r : PyDict T) : Captures T :=
  r.foldl (fun acc kv => acc.setItem kv.1 kv.2) c

/-- `ChainMap.__getitem__` over a list of scopes: first scope that holds the
key wins. -/
def scopesLookup {T : Type} : List (PyDict T) → CName → Option (CapVal T)
  | [], _ => none
  | s :: rest, k =>
      match s.lookup k with
      | some v => some v
      | none => scopesLookup rest k

/-- `ChainMap.__getitem__`: first scope that holds the key wins. -/
def Captures.lookup {T : Type} (c : Captures T) (k : CName) :
    Option (CapVal T) :=
  scopesLookup c.scopes k

/-- `Captures.to_dict` (line 123-124): `dict(chainmap)` builds the flattened
dict by updating from the oldest map to the newest, so the innermost binding
wins and keys keep first-appearance-from-the-oldest order. -/
def Captures.to_dict {T : Type} (c : Captures T) : PyDict T :=
  c.scopes.reverse.foldl dictUpdate []

/-- One value yielded by a `Pattern.match` generator, together with the
captures state at the moment of the yield.  All emissions of the source are
`int` end positions except one: `Repeat.match` with `min == 0` yields the
tuple `(start, {})` (general_searching.py:247-248), embedded as `pair`. -/
inductive Emit (T : Type) where
  | pos (i : Nat) (snap : Captures T)
  | pair (i : Nat) (snap : Captures T)
deriving DecidableEq, Repr

/-- Numeric component of an emission.  Note that downstream consumers of a
`pair` emission in the source (drivers comparing `i >= len(stream)`, later
`Concatenation` elements slicing with it) raise `TypeError`; no theorem below
relies on consuming a `pair` downstream. -/
def Emit.idx {T : Type} : Emit T → Nat
  | .pos i _ => i
  | .pair i _ => i

/-- Captures state at the moment of the yield. -/
def Emit.state {T : Type} : Emit T → Captures T
  | .pos _ c => c
  | .pair _ c => c

/-- A matcher: what `pattern.match(stream, start, captures)` denotes once the
stream is fixed — the list of emissions (in yield order) and the captures
state after the generator is exhausted. -/
abbrev M (T : Type) := Nat → Captures T → List (Emit T) × Captures T

/-- Result of a `FunctionMatch` predicate: `None`, a bool, or a dict
(general_searching.py:313-326). -/
inductive FMRes (T : Type) where
  | pynone
  | pybool (b : Bool)
  | pydict (d : PyDict T)

/-- The pattern language of general_searching.py.  Constructors keep the
source class names.  `Back` is not a `Pattern` in the source (it only marks a
backreference inside adapter predicates) and `StringMatch` is `str`-specific;
neither takes part in `Pattern.match` dispatch, so they are not constructors
here.  `FunctionMatch` predicates receive a read view of the captures. -/
inductive Pattern (T : Type) where
  | DirectMatch (value : T) (capture : Option CName)
  | AnyOfMatch (options : List T) (capture : Option CName)
  | FunctionMatch (func : (CName → Option (CapVal T)) → T → FMRes T)
      (capture : Option CName)
  | Any (capture : Option CName) (length : Nat)
  | AnyLens (capture : Option CName) (lengths : List Nat)
  | EOS
  | Lookahead (base : Pattern T) (no_captures : Bool)
  | Alternation (patterns : List (Pattern T))
  | Concatenation (patterns : List (Pattern T))
  | Repeat (base : Pattern T) (min : Nat) (max : Option Nat) (step : Nat)

/-- `Alternation.match` (general_searching.py:160-164): for each branch,
enter a scope, forward every emission of the branch (`yield from`), exit the
scope once the branch is exhausted. -/
def altRun {T : Type} : List (M T) → M T
  | [], _, c => ([], c)
  | m :: rest, start, c =>
      let c1 := c.enter
      let res := m start c1
      let c3 := res.2.exit
      let res2 := altRun rest start c3
      (res.1 ++ res2.1, res2.2)

/-- `Concatenation.match` (general_searching.py:201-222).  The source drives
an explicit stack of per-element iterators; its traversal is exactly the
depth-first recursion below: a scope is entered before an element's iterator
is created (lines 202, 217), each emission of the element feeds the remaining
elements at that end position and in that captures state, the final position
is yielded once every element has produced a result (lines 219-221), and the
element's scope is exited when its iterator is exhausted (lines 210-212).
With an empty element list the source raises `IndexError` on
`self.patterns[0]`; public composition never builds that. -/
def concatRun {T : Type} : List (M T) → M T
  | [], pos, c => ([Emit.pos pos c], c)
  | m :: rest, pos, c =>
      let c1 := c.enter
      let res := m pos c1
      (res.1.flatMap (fun e => (concatRun rest e.idx e.state).1), res.2.exit)

/-- The loop body of `Repeat.match` (general_searching.py:249-273), fused:
push the iterator for repetition `count+1` inside a fresh scope (lines 249-250
and 263-265, 269-271) and handle each of its emissions: below `min` recurse
without emitting (line 263-265); otherwise emit when `(count-min) % step == 0`
(lines 266-268) and keep repeating while `max` allows (lines 269-273).  The
source repeats until the inner pattern stops matching, which diverges when the
inner pattern makes no forward progress; `fuel` bounds the repetition depth of
the embedding. -/
def repeatGo {T : Type} (bm : M T) (mn : Nat) (mx : Option Nat) (st : Nat) :
    Nat → Nat → Nat → Captures T → List (Emit T) × Captures T
  | 0, _, _, c => ([], c)
  | fuel + 1, count, pos, c =>
      let c1 := c.enter
      let res := bm pos c1
      let handle : Emit T → List (Emit T) := fun e =>
        let count1 := count + 1
        if count1 < mn then
          (repeatGo bm mn mx st fuel count1 e.idx e.state).1
        else
          let eEms : List (Emit T) :=
            if (count1 - mn) % st == 0 then [Emit.pos e.idx e.state] else []
          let push : Bool :=
            match mx with
            | none => true
            | some m => count1 < m
          if push then
            eEms ++ (repeatGo bm mn mx st fuel count1 e.idx e.state).1
          else eEms
      (res.1.flatMap handle, res.2.exit)

/-- `Pattern.match` of every variant, with the stream fixed.  `fuel` bounds
the recursion depth (only `Repeat` with a non-advancing inner pattern can
exhaust it; the source loops forever there, cf. spec §9).  Out of fuel the
embedding emits nothing. -/
def pmatch {T : Type} [DecidableEq T] (s : List T) :
    Nat → Pattern T → M T
  | 0, _, _, c => ([], c)
  | fuel + 1, p, start, c =>
      match p with
      | .DirectMatch v cap =>
          -- general_searching.py:304-309
          if h : start < s.length then
            if s[start] = v then
              let c1 := c.maybe cap (.tok s[start])
              ([Emit.pos (start + 1) c1], c1)
            else ([], c)
          else ([], c)
      | .AnyOfMatch opts cap =>
          -- general_searching.py:334-340
          if h : start < s.length then
            if s[start] ∈ opts then
              let c1 := c.maybe cap (.tok s[start])
              ([Emit.pos (start + 1) c1], c1)
            else ([], c)
          else ([], c)
      | .FunctionMatch f cap =>
          -- general_searching.py:317-326; rejected iff the result is None,
          -- False, or falsy-and-not-the-empty-dict, i.e. None or False.
          if h : start < s.length then
            match f c.lookup s[start] with
            | .pynone => ([], c)
            | .pybool b =>
                if b then
                  let c1 := c.maybe cap (.tok s[start])
                  ([Emit.pos (start + 1) c1], c1)
                else ([], c)
            | .pydict d =>
                let c1 := (c.maybe cap (.tok s[start])).extend d
                ([Emit.pos (start + 1) c1], c1)
          else ([], c)
      | .Any cap len =>
          -- general_searching.py:281-288 (int length)
          if start ≥ s.length then ([], c)
          else if start + len > s.length then ([], c)
          else
            let c1 := c.maybe cap (.seq ((s.drop start).take len))
            ([Emit.pos (start + len) c1], c1)
      | .AnyLens cap lens =>
          -- general_searching.py:289-296 (sequence of lengths): each
          -- admissible length is emitted inside its own scope, which is
          -- exited right after the yield, so the running state is `c`.
          if start ≥ s.length then ([], c)
          else
            (lens.filterMap (fun l =>
              if start + l > s.length then none
              else some (Emit.pos (start + l)
                (c.enter.maybe cap (.seq ((s.drop start).take l))))), c)
      | .EOS =>
          -- general_searching.py:192-194
          if start ≥ s.length then ([Emit.pos start c], c) else ([], c)
      | .Lookahead base _ =>
          -- general_searching.py:184-188: enter, yield `start` once per
          -- emission of the inner pattern, exit.  (The `no_captures` field is
          -- never read by the source.)
          let res := pmatch s fuel base start c.enter
          (res.1.map (fun e => Emit.pos start e.state), res.2.exit)
      | .Alternation ps => altRun (ps.map (pmatch s fuel)) start c
      | .Concatenation ps => concatRun (ps.map (pmatch s fuel)) start c
      | .Repeat base mn mx st =>
          -- general_searching.py:246-273; `min == 0` first yields the tuple
          -- `(start, {})` (line 247-248) — a `pair`, not an int position.
          let initEms : List (Emit T) :=
            if mn == 0 then [Emit.pair start c] else []
          let res := repeatGo (pmatch s fuel base) mn mx st fuel 0 start c
          (initEms ++ res.1, res.2)

/-- `MatchResult` (general_searching.py:20-25); `end` is a Lean keyword and
is embedded as `endPos`. -/
structure MatchResult (T : Type) where
  start : Nat
  endPos : Nat
  orig : List T
  captures : PyDict T
deriving DecidableEq, Repr

/-- `MatcherFirst._match` (general_searching.py:44-49).  The source calls
`self.pattern.match(stream, 0, captures)` — the literal `0`, not the `start`
parameter — and builds `MatchResult(0, i, ...)`; the embedding reproduces
that faithfully (`start` is received and ignored, like in the source). -/
def MatcherFirst_match {T : Type} [DecidableEq T] (fuel : Nat)
    (pattern : Pattern T) (stream : List T) (start : Nat) :
    Option (MatchResult T) :=
  let _ := start
  let res := pmatch stream fuel pattern 0 (Captures.init T)
  match res.1 with
  | [] => none
  | e :: _ => some ⟨0, e.idx, stream, e.state.to_dict⟩

/-- The `while start < len(stream)` loop of `MatcherFirst.search`
(general_searching.py:57-63), counting down the number of remaining
iterations (the loop advances `start` by one per failed attempt, so
`stream.length` iterations suffice). -/
def searchFrom {T : Type} [DecidableEq T] (fuel : Nat) (pattern : Pattern T)
    (stream : List T) : Nat → Nat → Option (MatchResult T)
  | 0, _ => none
  | rem + 1, start =>
      if start < stream.length then
        match MatcherFirst_match fuel pattern stream start with
        | some r => some r
        | none => searchFrom fuel pattern stream rem (start + 1)
      else none

/-- `MatcherFirst.search` (general_searching.py:57-63): scan start positions
`0, 1, ...` left to right, returning the first `_match` success; falling off
the loop returns `None`. -/
def MatcherFirst_search {T : Type} [DecidableEq T] (fuel : Nat)
    (pattern : Pattern T) (stream : List T) : Option (MatchResult T) :=
  searchFrom fuel pattern stream stream.length 0

/-- Python `p + q` (pattern operands on both sides).  Python dispatches to
`type(p).__add__`: `Concatenation.__add__` (general_searching.py:224-228)
flattens a `Concatenation` right operand, while the inherited
`Pattern.__add__` (line 144-145) wraps both operands unflattened.
`Concatenation.__radd__` is only reached when the left operand is not a
`Pattern`, so it never applies here. -/
def addP {T : Type} : Pattern T → Pattern T → Pattern T
  | .Concatenation ps, .Concatenation qs => .Concatenation (ps ++ qs)
  | .Concatenation ps, q => .Concatenation (ps ++ [q])
  | p, q => .Concatenation [p, q]

/-- Python `p | q` (pattern operands on both sides): `Alternation.__or__`
(general_searching.py:166-170) flattens an `Alternation` right operand, the
inherited `Pattern.__or__` (line 138-139) wraps both operands unflattened. -/
def orP {T : Type} : Pattern T → Pattern T → Pattern T
  | .Alternation ps, .Alternation qs => .Alternation (ps ++ qs)
  | .Alternation ps, q => .Alternation (ps ++ [q])
  | p, q => .Alternation [p, q]

/-- `Pattern` is not a `Concatenation` (used to state the corrected
flattening law). -/
def isConcatenation {T : Type} : Pattern T → Prop
  | .Concatenation _ => True
  | _ => False

/-- `Pattern` is not an `Alternation`. -/
def isAlternation {T : Type} : Pattern T → Prop
  | .Alternation _ => True
  | _ => False

/-- A matcher respects the scope frame: it may modify the newest scope but
leaves the depth and every older scope untouched.  This is the key invariant
of the capture store: all writes (`__setitem__`, `maybe`, `extend`) go to the
newest `ChainMap` map, and every combinator brackets enter/exit in a
LIFO fashion. -/
def Frame {T : Type} (m : M T) : Prop :=
  ∀ (start : Nat) (sc : PyDict T) (rest : List (PyDict T)),
    ∃ sc2, (m start ⟨sc :: rest⟩).2 = ⟨sc2 :: rest⟩

theorem Captures.maybe_cons {T : Type} (sc : PyDict T) (rest : List (PyDict T))
    (cap : Option CName) (v : CapVal T) :
    ∃ sc2, Captures.maybe ⟨sc :: rest⟩ cap v = ⟨sc2 :: rest⟩ := by
  cases cap with
  | none => exact ⟨sc, rfl⟩
  | some n => exact ⟨dictSet sc n v, rfl⟩

theorem Captures.extend_cons {T : Type} (d : PyDict T) :
    ∀ (sc : PyDict T) (rest : List (PyDict T)),
    ∃ sc2, Captures.extend ⟨sc :: rest⟩ d = ⟨sc2 :: rest⟩ := by
  induction d with
  | nil => exact fun sc rest => ⟨sc, rfl⟩
  | cons kv d ih =>
      intro sc rest
      have h := ih (dictSet sc kv.1 kv.2) rest
      simpa [Captures.extend, Captures.setItem] using h

/-- A branch list whose members respect the frame leaves the captures exactly
as they were once every branch has been tried: each branch runs inside its own
scope, which is exited before the next branch starts. -/
theorem altRun_snd {T : Type} (ms : List (M T))
    (h : ∀ m ∈ ms, Frame m) :
    ∀ (start : Nat) (c : Captures T), (altRun ms start c).2 = c := by
  induction ms with
  | nil => intro start c; rfl
  | cons m rest ih =>
      intro start c
      obtain ⟨sc2, h2⟩ := h m (List.mem_cons_self m rest) start [] c.scopes
      simp only [altRun]
      rw [show (m start c.enter).2 = ⟨sc2 :: c.scopes⟩ from h2]
      exact ih (fun m hm => h m (List.mem_cons_of_mem _ hm)) start c

/-- `Concatenation.match` restores the captures exactly on exhaustion. -/
theorem concatRun_snd {T : Type} (ms : List (M T))
    (h : ∀ m ∈ ms, Frame m) :
    ∀ (pos : Nat) (c : Captures T), (concatRun ms pos c).2 = c := by
  cases ms with
  | nil => intro pos c; rfl
  | cons m rest =>
      intro pos c
      obtain ⟨sc2, h2⟩ := h m (List.mem_cons_self m rest) pos [] c.scopes
      simp only [concatRun]
      rw [show (m pos c.enter).2 = ⟨sc2 :: c.scopes⟩ from h2]
      rfl

/-- The `Repeat.match` loop restores the captures exactly on exhaustion. -/
theorem repeatGo_snd {T : Type} (bm : M T) (mn : Nat) (mx : Option Nat)
    (st : Nat) (hb : Frame bm) (fuel count pos : Nat) (c : Captures T) :
    (repeatGo bm mn mx st fuel count pos c).2 = c := by
  cases fuel with
  | zero => rfl
  | succ fuel =>
      obtain ⟨sc2, h2⟩ := hb pos [] c.scopes
      simp only [repeatGo]
      rw [show (bm pos c.enter).2 = ⟨sc2 :: c.scopes⟩ from h2]
      rfl

/-- Every pattern's `match` respects the scope frame: whatever it does, the
scope depth and all scopes below the newest are unchanged when the generator
is exhausted.  This is what makes the sequential embedding of the lazy
generators faithful, and it is the engine behind capture isolation. -/
theorem pmatch_frame {T : Type} [DecidableEq T] (s : List T) :
    ∀ (fuel : Nat) (p : Pattern T), Frame (pmatch s fuel p) := by
  intro fuel
  induction fuel with
  | zero => intro p start sc rest; exact ⟨sc, rfl⟩
  | succ fuel ih =>
      intro p start sc rest
      have hmem : ∀ m ∈ (fun ps => ps.map (pmatch s fuel)) [], Frame m := by
        simp
      cases p with
      | DirectMatch v cap =>
          simp only [pmatch]
          split
          next h =>
            split
            next hv =>
              obtain ⟨sc2, h2⟩ :=
                Captures.maybe_cons sc rest cap (CapVal.tok s[start])
              exact ⟨sc2, by simp [h2]⟩
            next => exact ⟨sc, rfl⟩
          next => exact ⟨sc, rfl⟩
      | AnyOfMatch opts cap =>
          simp only [pmatch]
          split
          next h =>
            split
            next hv =>
              obtain ⟨sc2, h2⟩ :=
                Captures.maybe_cons sc rest cap (CapVal.tok s[start])
              exact ⟨sc2, by simp [h2]⟩
            next => exact ⟨sc, rfl⟩
          next => exact ⟨sc, rfl⟩
      | FunctionMatch f cap =>
          simp only [pmatch]
          split
          next h =>
            cases hr : f (Captures.lookup ⟨sc :: rest⟩) s[start] with
            | pynone => exact ⟨sc, by simp [hr]⟩
            | pybool b =>
                cases b with
                | false => exact ⟨sc, by simp [hr]⟩
                | true =>
                    obtain ⟨sc2, h2⟩ :=
                      Captures.maybe_cons sc rest cap (CapVal.tok s[start])
                    exact ⟨sc2, by simp [hr, h2]⟩
            | pydict d =>
                obtain ⟨sc2, h2⟩ :=
                  Captures.maybe_cons sc rest cap (CapVal.tok s[start])
                obtain ⟨sc3, h3⟩ := Captures.extend_cons d sc2 rest
                refine ⟨sc3, ?_⟩
                simp only [hr]
                rw [h2, h3]
          next => exact ⟨sc, rfl⟩
      | Any cap len =>
          simp only [pmatch]
          split
          · exact ⟨sc, rfl⟩
          · split
            · exact ⟨sc, rfl⟩
            · obtain ⟨sc2, h2⟩ :=
                Captures.maybe_cons sc rest cap
                  (CapVal.seq ((s.drop start).take len))
              exact ⟨sc2, by simp [h2]⟩
      | AnyLens cap lens =>
          simp only [pmatch]
          split
          · exact ⟨sc, rfl⟩
          · exact ⟨sc, rfl⟩
      | EOS =>
          simp only [pmatch]
          split
          · exact ⟨sc, rfl⟩
          · exact ⟨sc, rfl⟩
      | Lookahead base nc =>
          obtain ⟨sc2, h2⟩ := ih base start [] (sc :: rest)
          refine ⟨sc, ?_⟩
          simp only [pmatch]
          rw [show (pmatch s fuel base start (Captures.enter ⟨sc :: rest⟩)).2
            = ⟨sc2 :: sc :: rest⟩ from h2]
          rfl
      | Alternation ps =>
          refine ⟨sc, ?_⟩
          simp only [pmatch]
          exact altRun_snd _ (by intro m hm; obtain ⟨q, hq, rfl⟩ := List.mem_map.mp hm; exact ih q) start ⟨sc :: rest⟩
      | Concatenation ps =>
          refine ⟨sc, ?_⟩
          simp only [pmatch]
          exact concatRun_snd _ (by intro m hm; obtain ⟨q, hq, rfl⟩ := List.mem_map.mp hm; exact ih q) start ⟨sc :: rest⟩
      | Repeat base mn mx st =>
          refine ⟨sc, ?_⟩
          simp only [pmatch]
          exact repeatGo_snd _ mn mx st (ih base) fuel 0 start ⟨sc :: rest⟩

/-- C1: the first-match driver's `search` was specified to scan start
positions left to right and return a match beginning at the smallest matching
start index.  The code is wrong: `MatcherFirst._match`
(general_searching.py:44-49) ignores its `start` parameter and always matches
the pattern at position 0, so `search` over the stream `[0, 1]` with the
pattern `DirectMatch 1` returns `None` even though the pattern has an
emission at start index 1 (second conjunct). -/
theorem search_ignores_start_bug :
    MatcherFirst_search 5 (.DirectMatch (1 : Nat) none) [0, 1] = none
    ∧ (pmatch [0, 1] 5 (.DirectMatch (1 : Nat) none) 1
        (Captures.init Nat)).1 = [Emit.pos 2 (Captures.init Nat)] :=
  ⟨rfl, rfl⟩

/-- C4: `Repeat` with `min == 0` was specified to yield the start index
itself as the count-0 emission.  The code is wrong: `Repeat.match`
(general_searching.py:247-248) yields the tuple `(start, {})` — not an `int`,
contradicting the declared `Iterable[int]` of `Pattern.match` and crashing the
drivers' `i >= len(stream)` comparison with a `TypeError`.  First conjunct:
over a stream where the inner pattern matches zero times,
`Repeat(DirectMatch 0, 0, None, 1)` produces exactly one emission and it is
the `(start, {})` pair, not the position `start`.  Second conjunct: the
repetition-count part of the claim does hold — `Repeat(p, 2, 4, 1)` over five
matching tokens emits exactly the end positions of counts `{2, 3, 4}`. -/
theorem repeat_min0_yields_pair_bug :
    (pmatch [1] 5 (.Repeat (.DirectMatch (0 : Nat) none) 0 none 1) 0
        (Captures.init Nat)).1 = [Emit.pair 0 (Captures.init Nat)]
    ∧ ((pmatch [0, 0, 0, 0, 0] 9
        (.Repeat (.DirectMatch (0 : Nat) none) 2 (some 4) 1) 0
        (Captures.init Nat)).1.map Emit.idx) = [2, 3, 4] :=
  ⟨rfl, rfl⟩

/-- C5: capture isolation of `Alternation` (general_searching.py:160-164).
Every candidate branch is bracketed by a capture-scope enter/exit, so a
branch that produced no emission leaves no trace whatsoever: the whole match
behaves exactly as if the failed branch were absent (first conjunct), and
after all branches have been tried the captures are restored exactly, so any
name `x` bound inside a branch is unbound/unchanged afterwards (second
conjunct). -/
theorem alternation_capture_isolation {T : Type} [DecidableEq T] (s : List T)
    (fuel : Nat) (p : Pattern T) (ps : List (Pattern T)) (start : Nat)
    (c : Captures T)
    (hfail : (pmatch s fuel p start c.enter).1 = []) :
    pmatch s (fuel + 1) (.Alternation (p :: ps)) start c
      = pmatch s (fuel + 1) (.Alternation ps) start c
    ∧ (pmatch s (fuel + 1) (.Alternation (p :: ps)) start c).2 = c := by
  have hframe : ∀ q : Pattern T, Frame (pmatch s fuel q) := pmatch_frame s fuel
  obtain ⟨sc2, h2⟩ := hframe p start [] c.scopes
  have hstep :
      pmatch s (fuel + 1) (.Alternation (p :: ps)) start c
        = pmatch s (fuel + 1) (.Alternation ps) start c := by
    simp only [pmatch, List.map, altRun]
    rw [hfail, show (pmatch s fuel p start c.enter).2 = ⟨sc2 :: c.scopes⟩ from h2]
    rfl
  refine ⟨hstep, ?_⟩
  rw [hstep]
  simp only [pmatch]
  exact altRun_snd _
    (by intro m hm; obtain ⟨q, hq, rfl⟩ := List.mem_map.mp hm; exact hframe q)
    start c

/-- Witness for `alternation_capture_isolation`: the first branch binds
`"x"` (via `DirectMatch 0 (some "x")`) and then fails on the second token, so
it has no emission; the `Alternation` then behaves exactly like one without
that branch, and its final captures are the initial ones. -/
theorem alternation_capture_isolation_witness :
    (pmatch [0, 2] 5
        (.Concatenation [.DirectMatch (0 : Nat) (some "x"), .DirectMatch 1 none])
        0 (Captures.init Nat).enter).1 = []
    ∧ (pmatch [0, 2] (5 + 1)
        (.Alternation [.Concatenation
            [.DirectMatch (0 : Nat) (some "x"), .DirectMatch 1 none],
          .DirectMatch 0 none]) 0 (Captures.init Nat)
        = pmatch [0, 2] (5 + 1) (.Alternation [.DirectMatch 0 none]) 0
            (Captures.init Nat)
      ∧ (pmatch [0, 2] (5 + 1)
          (.Alternation [.Concatenation
              [.DirectMatch (0 : Nat) (some "x"), .DirectMatch 1 none],
            .DirectMatch 0 none]) 0 (Captures.init Nat)).2
          = Captures.init Nat) :=
  ⟨by decide,
    alternation_capture_isolation [0, 2] 5
      (.Concatenation [.DirectMatch 0 (some "x"), .DirectMatch 1 none])
      [.DirectMatch 0 none] 0 (Captures.init Nat) (by decide)⟩

/-- C6 counterexample: `Lookahead.match` (general_searching.py:184-188) does
not stop after the first success — it yields `start` once per emission of the
inner pattern.  With an inner `Alternation` that has two emissions at the
same position, the lookahead emits twice, refuting "succeeds once iff inner
matches" / "yields the start position exactly once when inner has at least
one emission". -/
theorem lookahead_not_exactly_once :
    ((pmatch [0] 5
        (.Lookahead (.Alternation [.DirectMatch (0 : Nat) none, .DirectMatch 0 none]) false)
        0 (Captures.init Nat)).1.length = 2)
    ∧ (pmatch [0] 4 (.Alternation [.DirectMatch (0 : Nat) none, .DirectMatch 0 none])
        0 (Captures.init Nat).enter).1 ≠ [] :=
  ⟨rfl, by decide⟩

/-- C6 amended: `Lookahead(inner).match` is zero-width and yields the start
position once per emission of the inner pattern — so it yields nothing iff
inner has no emission (and in particular succeeds at least once iff inner
matches), every emission is the start position itself (no input is
consumed), and the captures are restored exactly on exhaustion. -/
theorem lookahead_zero_width_per_emission {T : Type} [DecidableEq T]
    (s : List T) (fuel : Nat) (base : Pattern T) (nc : Bool) (start : Nat)
    (c : Captures T) :
    (pmatch s (fuel + 1) (.Lookahead base nc) start c).1
      = ((pmatch s fuel base start c.enter).1).map
          (fun e => Emit.pos start e.state)
    ∧ (∀ e ∈ (pmatch s (fuel + 1) (.Lookahead base nc) start c).1,
        e.idx = start)
    ∧ ((pmatch s (fuel + 1) (.Lookahead base nc) start c).1 = []
        ↔ (pmatch s fuel base start c.enter).1 = [])
    ∧ (pmatch s (fuel + 1) (.Lookahead base nc) start c).2 = c := by
  refine ⟨rfl, ?_, ?_, ?_⟩
  · intro e he
    simp only [pmatch, List.mem_map] at he
    obtain ⟨e0, _, rfl⟩ := he
    rfl
  · simp [pmatch]
  · obtain ⟨sc2, h2⟩ := pmatch_frame s fuel base start [] c.scopes
    simp only [pmatch]
    rw [show (pmatch s fuel base start c.enter).2 = ⟨sc2 :: c.scopes⟩ from h2]
    rfl

/-- C9 counterexample: `p + q` with a non-`Concatenation` left operand and a
`Concatenation` right operand dispatches to the inherited `Pattern.__add__`
(general_searching.py:144-145), which wraps both operands without flattening
— the result nests a `Concatenation` directly inside a `Concatenation`; the
same happens for `|` with `Alternation` (line 138-139). -/
theorem add_or_do_not_flatten_right :
    addP (.DirectMatch (0 : Nat) none)
        (.Concatenation [.DirectMatch 1 none, .DirectMatch 2 none])
      = .Concatenation [.DirectMatch 0 none,
          .Concatenation [.DirectMatch 1 none, .DirectMatch 2 none]]
    ∧ addP (.DirectMatch (0 : Nat) none)
        (.Concatenation [.DirectMatch 1 none, .DirectMatch 2 none])
      ≠ .Concatenation
          [.DirectMatch 0 none, .DirectMatch 1 none, .DirectMatch 2 none]
    ∧ orP (.DirectMatch (0 : Nat) none)
        (.Alternation [.DirectMatch 1 none, .DirectMatch 2 none])
      = .Alternation [.DirectMatch 0 none,
          .Alternation [.DirectMatch 1 none, .DirectMatch 2 none]] := by
  refine ⟨rfl, ?_, rfl⟩
  intro h
  simp only [addP, Pattern.Concatenation.injEq, List.cons.injEq] at h
  exact Pattern.noConfusion h.2.1

/-- C9 amended: `p + q` always yields a single `Concatenation`, but
flattening is driven by the left operand only: a `Concatenation` left operand
flattens a `Concatenation` right operand (and appends any other right operand
as one element), while a non-`Concatenation` left operand produces
`Concatenation [p, q]` with `q` unflattened even when `q` is itself a
`Concatenation`.  Likewise for `|` with `Alternation`. -/
theorem add_or_flatten_left_operand {T : Type} (ps qs : List (Pattern T))
    (p q : Pattern T) :
    (addP (.Concatenation ps) (.Concatenation qs) = .Concatenation (ps ++ qs))
    ∧ (¬ isConcatenation q → addP (.Concatenation ps) q
        = .Concatenation (ps ++ [q]))
    ∧ (¬ isConcatenation p → addP p q = .Concatenation [p, q])
    ∧ (orP (.Alternation ps) (.Alternation qs) = .Alternation (ps ++ qs))
    ∧ (¬ isAlternation q → orP (.Alternation ps) q = .Alternation (ps ++ [q]))
    ∧ (¬ isAlternation p → orP p q = .Alternation [p, q]) := by
  refine ⟨rfl, ?_, ?_, rfl, ?_, ?_⟩
  · intro hq; cases q <;> first | rfl | exact absurd trivial hq
  · intro hp; cases p <;> first | rfl | exact absurd trivial hp
  · intro hq; cases q <;> first | rfl | exact absurd trivial hq
  · intro hp; cases p <;> first | rfl | exact absurd trivial hp

/-- Witness for `add_or_flatten_left_operand` at concrete patterns. -/
theorem add_or_flatten_left_operand_witness :
    ¬ isConcatenation (Pattern.EOS : Pattern Nat)
    ∧ addP (.DirectMatch (0 : Nat) none) .EOS
        = .Concatenation [.DirectMatch 0 none, .EOS] :=
  ⟨fun h => h,
    (add_or_flatten_left_operand [] [] (.DirectMatch (0 : Nat) none)
        .EOS).2.2.1 (fun h => h)⟩

end GeneralSearching

namespace BasicAssembler

/-- The Python values that flow through basic_assembler.py: table entries
(constants, name strings), instruction arguments (`None | int | str | Label`),
and `BasicBlockTarget` labels.  `bool` is kept separate from `int` because the
constant table distinguishes representation kinds via `type(v) == type(e)`
(`_strict_index`); container and float constants are outside the model. -/
inductive PyVal where
  | vint (n : Int)
  | vbool (b : Bool)
  | vstr (s : String)
  | vnone
  | vlabel (target_id : Int) (offset : Int)
deriving DecidableEq, Repr

/-- Python `==` on the modelled values.  `True == 1` and `False == 0` hold
across the `bool`/`int` kinds; `None` and labels (frozen dataclasses) compare
by content against their own kind only. -/
def pyEq : PyVal → PyVal → Bool
  | .vint a, .vint b => a == b
  | .vint a, .vbool b => a == (if b then (1 : Int) else 0)
  | .vbool a, .vint b => (if a then (1 : Int) else 0) == b
  | .vbool a, .vbool b => a == b
  | .vstr a, .vstr b => a == b
  | .vnone, .vnone => true
  | .vlabel t o, .vlabel t2 o2 => t == t2 && o == o2
  | _, _ => false

/-- Python `type(v)` at the granularity `_strict_index` needs. -/
inductive PyType where
  | intT | boolT | strT | noneT | labelT
deriving DecidableEq, Repr

def PyVal.pytype : PyVal → PyType
  | .vint _ => .intT
  | .vbool _ => .boolT
  | .vstr _ => .strT
  | .vnone => .noneT
  | .vlabel _ _ => .labelT

/-- Exceptions surfaced by the embedded code paths. -/
inductive PyErr where
  | valueError
  | assertionError
  | keyError
  | typeError
  | nonTermination
deriving DecidableEq, Repr

/-- Index of the first element satisfying `p`. -/
def firstIdxP (p : PyVal → Bool) : List PyVal → Option Nat
  | [] => none
  | e :: rest => if p e then some 0 else (firstIdxP p rest).map (· + 1)

/-- Index of the first element `e` of `l` with `v == e` (Python membership
and `list.index` equality). -/
def findPyIdx (l : List PyVal) (v : PyVal) : Option Nat :=
  firstIdxP (fun e => pyEq v e) l

/-- Python `list.index(v)`: first plain-equality match, `ValueError` when
absent. -/
def list_index (l : List PyVal) (v : PyVal) : Except PyErr Nat :=
  match findPyIdx l v with
  | some i => .ok i
  | none => .error .valueError

/-- Index of the first element matching by value AND representation kind. -/
def findStrictIdx (l : List PyVal) (v : PyVal) : Option Nat :=
  firstIdxP (fun e => pyEq v e && v.pytype == e.pytype) l

/-- `_strict_index` (basic_assembler.py:10-14): prefer the first element that
is equal AND of the identical type, else fall back to `l.index(v)` (plain
equality, `ValueError` when absent). -/
def _strict_index (l : List PyVal) (v : PyVal) : Except PyErr Nat :=
  match findStrictIdx l v with
  | some i => .ok i
  | none => list_index l v

/-- `CodeInfo` (basic_assembler.py:98-113).  Name tables hold `vstr` values;
Python keeps them in heterogeneous lists, so all five tables are `List
PyVal` here. -/
structure CodeInfo where
  co_argcount : Nat
  co_posonlyargcount : Nat
  co_kwonlyargcount : Nat
  co_nlocals : Nat
  co_stacksize : Nat
  co_flags : Nat
  co_consts : List PyVal
  co_names : List PyVal
  co_varnames : List PyVal
  co_filename : String
  co_name : String
  co_freevars : List PyVal
  co_cellvars : List PyVal
deriving DecidableEq, Repr

/-- The `Literal['consts','names','varnames','freevars','cellvars']` selector
of `make_sure`. -/
inductive TableName where
  | consts | names | varnames | freevars | cellvars
deriving DecidableEq, Repr

/-- `getattr(self, "co_" + name)` for the five tables. -/
def CodeInfo.getTable (ci : CodeInfo) : TableName → List PyVal
  | .consts => ci.co_consts
  | .names => ci.co_names
  | .varnames => ci.co_varnames
  | .freevars => ci.co_freevars
  | .cellvars => ci.co_cellvars

/-- Replace one of the five tables. -/
def CodeInfo.setTable (ci : CodeInfo) : TableName → List PyVal → CodeInfo
  | .consts, l => { ci with co_consts := l }
  | .names, l => { ci with co_names := l }
  | .varnames, l => { ci with co_varnames := l }
  | .freevars, l => { ci with co_freevars := l }
  | .cellvars, l => { ci with co_cellvars := l }

/-- `CodeInfo.make_sure` (basic_assembler.py:151-155): `if value not in l:
l.append(value); return l.index(value)`.  Membership and `index` use plain
Python equality for every table — `_strict_index` is not involved here.  The
returned index always exists (the value was just appended otherwise); the
unreachable `none` branch returns 0. -/
def CodeInfo.make_sure (ci : CodeInfo) (name : TableName) (value : PyVal) :
    CodeInfo × Nat :=
  let l := ci.getTable name
  let l2 := if (findPyIdx l value).isSome then l else l ++ [value]
  (ci.setTable name l2, (findPyIdx l2 value).getD 0)

/-- `CodeInfo.get_free_index` (basic_assembler.py:121-125). -/
def CodeInfo.get_free_index (ci : CodeInfo) (name : PyVal) :
    Except PyErr Nat :=
  if (findPyIdx ci.co_cellvars name).isSome then
    list_index ci.co_cellvars name
  else do
    let i ← list_index ci.co_freevars name
    pure (ci.co_cellvars.length + i)

/-- The slice of the `dis` module the assembler reads: opcode classification
tables, the comparison-operator table, and the argument threshold.
`no_next_ops` stands for the opname test
`self.opname in ('RETURN_VALUE', 'JUMP_ABSOLUTE', 'JUMP_FORWARD')`
(basic_assembler.py:42-43), translated through the fixed opcode table. -/
structure DisTables where
  HAVE_ARGUMENT : Nat
  EXTENDED_ARG : Nat
  hasname : List Nat
  haslocal : List Nat
  hasconst : List Nat
  hascompare : List Nat
  hasfree : List Nat
  hasjrel : List Nat
  hasjabs : List Nat
  cmp_op : List PyVal
  no_next_ops : List Nat
deriving Repr

/-- The CPython 3.10 tables (the interpreter version the repository targets:
its tests use `match` statements and 3.10 unit-based jump encoding). -/
def cpython310 : DisTables where
  HAVE_ARGUMENT := 90
  EXTENDED_ARG := 144
  hasname := [90, 91, 95, 96, 97, 98, 101, 106, 108, 109, 116, 160]
  haslocal := [124, 125, 126]
  hasconst := [100]
  hascompare := [107]
  hasfree := [135, 136, 137, 138, 148]
  hasjrel := [93, 110, 122, 143, 154]
  hasjabs := [111, 112, 113, 114, 115, 121]
  cmp_op := [.vstr "<", .vstr "<=", .vstr "==", .vstr "!=", .vstr ">",
    .vstr ">="]
  no_next_ops := [83, 113, 110]

/-- `Instruction` (basic_assembler.py:17-47): opcode plus argument
(`None | int | str | Label`; `from_dis` stores `raw.argval`). -/
structure Instruction where
  opcode : Nat
  arg : PyVal
deriving DecidableEq, Repr

/-- `Instruction.is_jump` (basic_assembler.py:37-39). -/
def Instruction.is_jump (tbl : DisTables) (i : Instruction) : Bool :=
  i.opcode ∈ tbl.hasjrel || i.opcode ∈ tbl.hasjabs

/-- `Instruction.no_next` (basic_assembler.py:41-43). -/
def Instruction.no_next (tbl : DisTables) (i : Instruction) : Bool :=
  i.opcode ∈ tbl.no_next_ops

/-- One encoded instruction unit as yielded by `get_raw`: an opcode byte and
an optional argument byte (`dis.Instruction(self.opname, self.opcode, arg,
None, ...)`). -/
structure RawIns where
  opcode : Nat
  arg : Option Nat
deriving DecidableEq, Repr

/-- `isinstance(x, Label)`. -/
def PyVal.isLabel : PyVal → Bool
  | .vlabel _ _ => true
  | _ => false

/-- `isinstance(x, int)` (which includes `bool` in Python), with the value
used in arithmetic. -/
def toIntIsInstance : PyVal → Option Int
  | .vint n => some n
  | .vbool b => some (if b then 1 else 0)
  | _ => none

/-- The `while arg_i > 0xFF: vs.append(arg_i & 0xFF); arg_i >>= 8` loop of
`get_raw` (basic_assembler.py:71-75), low-order chunk first, final chunk
last.  The loop strictly shrinks `arg_i`, so `n` itself is enough fuel; the
fuel-exhausted base case is unreachable when `fuel ≥ n`. -/
def chunkBytesF : Nat → Nat → List Nat
  | 0, n => [n]
  | fuel + 1, n => if n > 0xFF then (n % 256) :: chunkBytesF fuel (n / 256) else [n]

/-- Chunks of `n`, low-order first (the `vs` list before `vs.reverse()`). -/
def chunkBytes (n : Nat) : List Nat := chunkBytesF n n

/-- `Instruction.get_raw` (basic_assembler.py:49-79).  Parameter names follow
the source: at the call site (line 301) `o` receives the enumeration index of
the instruction and `j` the resolved target offset.  The argument is resolved
through the sequential `elif` chain, asserted non-negative (line 70), and
encoded as zero or more `EXTENDED_ARG` prefixes followed by the opcode with
the low-order byte (lines 71-79). -/
def Instruction.get_raw (self : Instruction) (tbl : DisTables)
    (code_info : CodeInfo) (o : Int) (j : Option Int) :
    Except PyErr (List RawIns) :=
  if self.opcode < tbl.HAVE_ARGUMENT then
    .ok [⟨self.opcode, none⟩]
  else do
    let arg_i : Int ←
      if self.opcode ∈ tbl.hasname then
        (list_index code_info.co_names self.arg).map Int.ofNat
      else if self.opcode ∈ tbl.haslocal then
        (list_index code_info.co_varnames self.arg).map Int.ofNat
      else if self.opcode ∈ tbl.hasconst then
        (_strict_index code_info.co_consts self.arg).map Int.ofNat
      else if self.opcode ∈ tbl.hascompare then
        (list_index tbl.cmp_op self.arg).map Int.ofNat
      else if self.opcode ∈ tbl.hasfree then
        (code_info.get_free_index self.arg).map Int.ofNat
      else if self.opcode ∈ tbl.hasjrel ∧ self.arg.isLabel then
        match j with
        | some jv => pure (jv - o - 1)
        | none => .error .typeError
      else if self.opcode ∈ tbl.hasjabs ∧ self.arg.isLabel then
        match j with
        | some jv => pure jv
        | none => .error .typeError
      else
        match toIntIsInstance self.arg with
        | some n => pure n
        | none => .error .assertionError
    if arg_i < 0 then .error .assertionError
    else
      let chunks := chunkBytes arg_i.toNat
      .ok ((chunks.tail.reverse.map (fun v => ⟨tbl.EXTENDED_ARG, some v⟩))
        ++ [⟨self.opcode, some (chunks.headD 0)⟩])

/-- A `CodeInfo` with empty tables and zeroed scalars, for concrete runs. -/
def emptyCodeInfo : CodeInfo :=
  ⟨0, 0, 0, 0, 0, 0, [], [], [], "", "", [], []⟩

theorem getTable_setTable (ci : CodeInfo) (tb : TableName) (l : List PyVal) :
    (ci.setTable tb l).getTable tb = l := by
  cases tb <;> rfl

theorem setTable_getTable (ci : CodeInfo) (tb : TableName) :
    ci.setTable tb (ci.getTable tb) = ci := by
  cases tb <;> rfl

theorem pyEq_refl (v : PyVal) : pyEq v v = true := by
  cases v <;> simp [pyEq]

theorem findPyIdx_append_self (l : List PyVal) (v : PyVal)
    (h : findPyIdx l v = none) :
    findPyIdx (l ++ [v]) v = some l.length := by
  induction l with
  | nil => simp [findPyIdx, firstIdxP, pyEq_refl]
  | cons e rest ih =>
      simp only [findPyIdx, firstIdxP] at h ⊢
      by_cases he : pyEq v e = true
      · simp [he] at h
      · simp only [he, if_neg, Bool.false_eq_true, ite_false,
          Option.map_eq_none'] at h ⊢
        have := ih (by simpa [findPyIdx] using h)
        simp [findPyIdx] at this
        simp [this, List.length_cons]

/-- C8 counterexample: the claim says `make_sure('consts', v)` reuses an
existing index only when an existing entry equals `v` AND has `v`'s
representation kind.  But `make_sure` (basic_assembler.py:151-155) uses plain
`in`/`list.index` equality for every table: inserting `True` into a constant
table that holds the `int` `1` reuses index 0 and appends nothing, although
the representation kinds differ (third conjunct). -/
theorem make_sure_consts_ignores_kind :
    (({ emptyCodeInfo with co_consts := [.vint 1] } :
        CodeInfo).make_sure .consts (.vbool true)).2 = 0
    ∧ (({ emptyCodeInfo with co_consts := [.vint 1] } :
        CodeInfo).make_sure .consts (.vbool true)).1
        = { emptyCodeInfo with co_consts := [.vint 1] }
    ∧ (PyVal.vbool true).pytype ≠ (PyVal.vint 1).pytype := by
  refine ⟨rfl, rfl, by decide⟩

/-- C8 amended: dedup-on-insert is by plain Python equality for every table,
the constants table included — `make_sure` reuses the first plain-equal
entry's index whatever its representation kind, and appends (returning the
fresh index) only when no entry is plain-equal.  The value-and-kind
distinction lives in operand resolution instead: `_strict_index`, used by
`get_raw` for constants, prefers the first entry equal with identical type
over an earlier merely-equal entry (last two conjuncts contrast the two
lookups on `[1, True]`). -/
theorem make_sure_dedups_by_plain_equality (ci : CodeInfo) (tb : TableName)
    (v : PyVal) :
    (∀ i, findPyIdx (ci.getTable tb) v = some i → ci.make_sure tb v = (ci, i))
    ∧ (findPyIdx (ci.getTable tb) v = none →
        (ci.make_sure tb v).1.getTable tb = ci.getTable tb ++ [v]
        ∧ (ci.make_sure tb v).2 = (ci.getTable tb).length)
    ∧ _strict_index [.vint 1, .vbool true] (.vbool true) = .ok 1
    ∧ list_index [.vint 1, .vbool true] (.vbool true) = .ok 0 := by
  refine ⟨?_, ?_, rfl, rfl⟩
  · intro i hi
    simp only [CodeInfo.make_sure, hi, Option.isSome_some, if_true,
      setTable_getTable, Option.getD_some]
  · intro hnone
    have happ := findPyIdx_append_self (ci.getTable tb) v hnone
    simp [CodeInfo.make_sure, hnone, getTable_setTable, happ]

/-- Witness for `make_sure_dedups_by_plain_equality`: inserting the string
`"x"` into an empty names table appends it at index 0. -/
theorem make_sure_dedups_by_plain_equality_witness :
    findPyIdx (emptyCodeInfo.getTable .names) (.vstr "x") = none
    ∧ (emptyCodeInfo.make_sure .names (.vstr "x")).1.getTable .names
        = emptyCodeInfo.getTable .names ++ [.vstr "x"]
    ∧ (emptyCodeInfo.make_sure .names (.vstr "x")).2
        = (emptyCodeInfo.getTable .names).length :=
  ⟨rfl, (make_sure_dedups_by_plain_equality emptyCodeInfo .names
      (.vstr "x")).2.1 rfl⟩

/-- C10: during operand encoding `get_raw` asserts the resolved operand index
non-negative (basic_assembler.py:70); for a relative-jump instruction
carrying a `Label`, the index is `j - o - 1` (line 64), so whenever the
resolved target `j` is not strictly greater than the instruction's own index
`o` the assertion fires — only forward relative jumps can be encoded. -/
theorem get_raw_rejects_nonforward_relative_jump (tbl : DisTables)
    (ins : Instruction) (ci : CodeInfo) (o jv : Int)
    (hga : ¬ ins.opcode < tbl.HAVE_ARGUMENT)
    (h1 : ins.opcode ∉ tbl.hasname) (h2 : ins.opcode ∉ tbl.haslocal)
    (h3 : ins.opcode ∉ tbl.hasconst) (h4 : ins.opcode ∉ tbl.hascompare)
    (h5 : ins.opcode ∉ tbl.hasfree) (h6 : ins.opcode ∈ tbl.hasjrel)
    (h7 : ins.arg.isLabel = true) (h8 : jv ≤ o) :
    ins.get_raw tbl ci o (some jv) = .error .assertionError := by
  have hneg : jv - o - 1 < 0 := by omega
  simp only [Instruction.get_raw, hga, if_false, h1, h2, h3, h4, h5, h6, h7,
    and_true, and_self, if_true, ite_false, ite_true]
  simp [hneg, Except.bind]

/-- Python dicts with `K` keys, as insertion-ordered association lists
(unique keys by construction). -/
def alGet {K V : Type} [DecidableEq K] : List (K × V) → K → Option V
  | [], _ => none
  | (k0, v0) :: rest, k => if k0 = k then some v0 else alGet rest k

/-- `d[k] = v`: overwrite in place keeping the position, else append. -/
def alSet {K V : Type} [DecidableEq K] : List (K × V) → K → V → List (K × V)
  | [], k, v => [(k, v)]
  | (k0, v0) :: rest, k, v =>
      if k0 = k then (k, v) :: rest else (k0, v0) :: alSet rest k v

/-- `d.pop(k)` (the removal part). -/
def alRemove {K V : Type} [DecidableEq K] : List (K × V) → K → List (K × V)
  | [], _ => []
  | (k0, v0) :: rest, k =>
      if k0 = k then rest else (k0, v0) :: alRemove rest k

/-- `min(d)`: smallest key. -/
def alMinKey {V : Type} : List (Int × V) → Option Int
  | [] => none
  | (k, _) :: rest =>
      match alMinKey rest with
      | none => some k
      | some m => some (min k m)

/-- `BasicBlock` (basic_assembler.py:179-187): instruction run, optional
trailing jump, optional fallthrough label, position tag.  The `code_info`
field of the `Block` base class is the one shared `CodeInfo` of the graph and
is carried by the `FunctionBlock` instead. -/
structure BasicBlock where
  id : Int
  instructions : List Instruction
  jump_instruction : Option Instruction
  next_target : Option PyVal
  line : Option Int
deriving DecidableEq, Repr

/-- `FunctionBlock` (basic_assembler.py:227-230): entry id and the
insertion-ordered `blocks` dict.  The repository's pipeline only ever stores
`BasicBlock`s in it (the disassembler creates nothing else; `MetaBlock` has
no `as_basic_blocks` implementation). -/
structure FunctionBlock where
  code_info : CodeInfo
  id : Int
  entry : Int
  blocks : List (Int × BasicBlock)
deriving Repr

/-- Phase 1 of `FunctionBlock.as_basic_blocks` (basic_assembler.py:233-244):
every block starts as a singleton run in `runs_by_start` (asserting unique
ids), and each fallthrough label registers the run in `runs_by_target`
(asserting label shape, zero offset and unique targets).  Python aliases the
run list object in both dicts; a run is identified here by the id of its head
block, which survives every later splice. -/
def buildRuns : List BasicBlock → List (Int × List BasicBlock) →
    List (Int × Int) →
    Except PyErr (List (Int × List BasicBlock) × List (Int × Int))
  | [], rbs, rbt => .ok (rbs, rbt)
  | bb :: rest, rbs, rbt =>
      if (alGet rbs bb.id).isSome then .error .assertionError
      else
        let rbs1 := rbs ++ [(bb.id, [bb])]
        match bb.next_target with
        | none => buildRuns rest rbs1 rbt
        | some (.vlabel tid off) =>
            if off ≠ 0 then .error .assertionError
            else if (alGet rbt tid).isSome then .error .assertionError
            else buildRuns rest rbs1 (rbt ++ [(tid, bb.id)])
        | some _ => .error .assertionError

/-- Phase 2 of `as_basic_blocks` (basic_assembler.py:245-255): repeatedly
`popitem` (last inserted entry) a pending target, check the target heads a
run ("Can't find target block"), pop both runs, splice, and redirect the
entry that pointed at the consumed run.  Fuel is `|runs_by_target|`, which
strictly decreases, so the 0 case is unreachable at that fuel. -/
def spliceLoop : Nat → List (Int × Int) → List (Int × List BasicBlock) →
    Except PyErr (List (Int × List BasicBlock))
  | fuel, rbt, rbs =>
      match rbt.getLast? with
      | none => .ok rbs
      | some (tid, startHead) =>
          match fuel with
          | 0 => .error .nonTermination
          | fuel + 1 =>
              let rbt1 := rbt.dropLast
              if (alGet rbs tid).isNone then .error .assertionError
              else
                match alGet rbs startHead with
                | none => .error .keyError
                | some start_run =>
                    let rbs1 := alRemove rbs startHead
                    match alGet rbs1 tid with
                    | none => .error .keyError
                    | some end_run =>
                        let rbs2 := alRemove rbs1 tid
                        let run := start_run ++ end_run
                        match run.getLast? with
                        | none => .error .keyError
                        | some lastBB =>
                            match lastBB.next_target with
                            | none =>
                                spliceLoop fuel rbt1 (rbs2 ++ [(startHead, run)])
                            | some (.vlabel tid2 _) =>
                                match alGet rbt1 tid2 with
                                | none => .error .keyError
                                | some h2 =>
                                    if h2 = tid then
                                      spliceLoop fuel (alSet rbt1 tid2 startHead)
                                        (rbs2 ++ [(startHead, run)])
                                    else .error .assertionError
                            | some _ => .error .assertionError

/-- Phase 3 of `as_basic_blocks` (basic_assembler.py:256-259): after popping
the entry run, drain the remaining runs in ascending-key order. -/
def collectRuns : Nat → List (Int × List BasicBlock) → List BasicBlock →
    Except PyErr (List BasicBlock)
  | _, [], acc => .ok acc
  | 0, _ :: _, _ => .error .nonTermination
  | fuel + 1, rbs, acc =>
      match alMinKey rbs with
      | none => .ok acc
      | some m =>
          match alGet rbs m with
          | none => .error .keyError
          | some run => collectRuns fuel (alRemove rbs m) (acc ++ run)

/-- `FunctionBlock.as_basic_blocks` (basic_assembler.py:232-259). -/
def FunctionBlock.as_basic_blocks (fb : FunctionBlock) :
    Except PyErr (List BasicBlock) := do
  let (rbs, rbt) ← buildRuns (fb.blocks.map (·.2)) [] []
  let rbs2 ← spliceLoop rbt.length rbt rbs
  match alGet rbs2 fb.entry with
  | none => .error .keyError
  | some entryRun =>
      let rbs3 := alRemove rbs2 fb.entry
      collectRuns rbs3.length rbs3 entryRun

/-- Accumulator of `FunctionBlock.get_instructions`
(basic_assembler.py:261-277). -/
structure GIState where
  block_starts : List (Int × Nat)
  line_starts : List (Nat × Option Int)
  ins : List Instruction
  last_line : Option Int
  to_fix : List Nat
deriving Repr

/-- One block of the `get_instructions` fold (basic_assembler.py:268-277). -/
def giStep (st : GIState) (b : BasicBlock) : Except PyErr GIState :=
  let bs := alSet st.block_starts b.id st.ins.length
  let lsll :=
    if b.line ≠ st.last_line
    then (alSet st.line_starts st.ins.length b.line, b.line)
    else (st.line_starts, st.last_line)
  let ins1 := st.ins ++ b.instructions
  match b.jump_instruction with
  | none => .ok ⟨bs, lsll.1, ins1, lsll.2, st.to_fix⟩
  | some ji =>
      if ji.arg.isLabel then
        .ok ⟨bs, lsll.1, ins1 ++ [ji], lsll.2, st.to_fix ++ [ins1.length]⟩
      else .error .assertionError

/-- The `for i in to_fix` loop of `get_instructions`
(basic_assembler.py:278-281): `jumps[i] = block_starts[l.target_id] +
l.offset`. -/
def fixJumps (ins : List Instruction) (block_starts : List (Int × Nat)) :
    List Nat → Except PyErr (List (Nat × Int))
  | [] => .ok []
  | i :: rest => do
      match ins[i]? with
      | none => .error .keyError
      | some insn =>
          match insn.arg with
          | .vlabel tid off =>
              match alGet block_starts tid with
              | some bsv => do
                  let tail ← fixJumps ins block_starts rest
                  .ok ((i, (bsv : Int) + off) :: tail)
              | none => .error .keyError
          | _ => .error .assertionError

/-- `FunctionBlock.get_instructions` (basic_assembler.py:261-282). -/
def FunctionBlock.get_instructions (fb : FunctionBlock) :
    Except PyErr (List (Nat × Int) × List (Nat × Option Int) ×
      List Instruction) := do
  let bbs ← fb.as_basic_blocks
  let st ← bbs.foldlM giStep ⟨[], [], [], none, []⟩
  let jumps ← fixJumps st.ins st.block_starts st.to_fix
  .ok (jumps, st.line_starts, st.ins)

/-- `_to_bytes` (basic_assembler.py:190-195): `out.append(i.opcode);
out.append(i.arg or 0)`. -/
def _to_bytes (raw : List RawIns) : List Nat :=
  raw.flatMap (fun i => [i.opcode, i.arg.getD 0])

/-- Per-pass accumulator of `FunctionBlock.assemble`
(basic_assembler.py:292-301): the in-place-updated target map, the raw
instruction units, and the line offsets. -/
structure PassState where
  t : List (Int × Int)
  raw : List RawIns
  lo : List (Nat × Option Int)
deriving DecidableEq, Repr

/-- One instruction of the assembly pass (basic_assembler.py:294-301).
`actual_targets` is updated in place, so a target at or before the current
index is read at its fresh value and a later one at the previous pass's
value.  The source's parameter order at line 301 resolves the target `o`
through the map and hands `(j, o)` to `get_raw`. -/
def passStep (tbl : DisTables) (ci : CodeInfo) (jumps : List (Nat × Int))
    (line_starts : List (Nat × Option Int)) (st : PassState) (j : Nat)
    (i : Instruction) : Except PyErr PassState := do
  let t1 := if (alGet st.t (j : Int)).isSome
    then alSet st.t (j : Int) (st.raw.length : Int) else st.t
  let lo1 := match alGet line_starts j with
    | some l => alSet st.lo (st.raw.length * 2) l
    | none => st.lo
  let o : Option Int := (alGet jumps j).bind (fun tgt => alGet t1 tgt)
  let raws ← i.get_raw tbl ci (j : Int) o
  .ok ⟨t1, st.raw ++ raws, lo1⟩

/-- The `for j, i in enumerate(ins)` loop of one pass. -/
def passGo (tbl : DisTables) (ci : CodeInfo) (jumps : List (Nat × Int))
    (line_starts : List (Nat × Option Int)) :
    List Instruction → Nat → PassState → Except PyErr PassState
  | [], _, st => .ok st
  | i :: rest, j, st => do
      let st1 ← passStep tbl ci jumps line_starts st j i
      passGo tbl ci jumps line_starts rest (j + 1) st1

/-- One full pass of the fixed-point loop, starting from target map `t` with
empty `raw_ins` and `line_offsets` (basic_assembler.py:292-301). -/
def passOnce (tbl : DisTables) (ci : CodeInfo) (jumps : List (Nat × Int))
    (line_starts : List (Nat × Option Int)) (ins : List Instruction)
    (t : List (Int × Int)) : Except PyErr PassState :=
  passGo tbl ci jumps line_starts ins 0 ⟨t, [], []⟩

/-- The `while old_hash != hash(frozenset(actual_targets.items()))` loop
(basic_assembler.py:287-301): run a pass, stop when the target map is
unchanged (the source compares hashes of the item sets; the key set is fixed
and the insertion order never changes, so map equality is the faithful
collision-free reading), otherwise iterate.  The source has no pass bound and
would loop forever on divergence; fuel exhaustion models that. -/
def assembleLoop (tbl : DisTables) (ci : CodeInfo) (jumps : List (Nat × Int))
    (line_starts : List (Nat × Option Int)) (ins : List Instruction) :
    Nat → List (Int × Int) → Except PyErr PassState
  | 0, _ => .error .nonTermination
  | fuel + 1, t => do
      let st ← passOnce tbl ci jumps line_starts ins t
      if st.t = t then .ok st
      else assembleLoop tbl ci jumps line_starts ins fuel st.t

/-- `actual_targets = {o: o for o in jumps.values()}`
(basic_assembler.py:286). -/
def initTargets (jumps : List (Nat × Int)) : List (Int × Int) :=
  jumps.foldl (fun acc p => alSet acc p.2 p.2) []

/-- `FunctionBlock.assemble` (basic_assembler.py:284-308), up to the raw
instruction stream: the returned value is the `co_code` byte list
(`_to_bytes(raw_ins)`).  The position-table encoding (`_to_linetab`) and the
`CodeType` construction only package the remaining fields and are outside
the byte-stream claims. -/
def FunctionBlock.assemble (fuel : Nat) (tbl : DisTables)
    (fb : FunctionBlock) : Except PyErr (List Nat) := do
  let (jumps, line_starts, ins) ← fb.get_instructions
  let st ← assembleLoop tbl fb.code_info jumps line_starts ins fuel
    (initTargets jumps)
  .ok (_to_bytes st.raw)

/-- One flat instruction tuple as consumed by `disassemble`
(basic_assembler.py:316-354): the fields of `dis.Instruction` that the
function reads (`opcode`, `argval`, `offset`, `starts_line`,
`is_jump_target`).  `dis.get_instructions` of CPython 3.10 yields one tuple
per instruction unit, `EXTENDED_ARG` units included, with the accumulated
argument folded into the following instruction's `argval`. -/
structure DisRaw where
  opcode : Nat
  argval : PyVal
  offset : Int
  starts_line : Option Int
  is_jump_target : Bool
deriving Repr

/-- Mutable state of the `disassemble` scan loop.  `current`/`last` hold
block ids (the source holds the block objects themselves and mutates them;
blocks live in the `blocks` dict from creation, so mutation is an update of
the dict entry here). -/
structure DisState where
  block_id : Int
  blocks : List (Int × BasicBlock)
  labels : List (Int × PyVal)
  current : Option Int
  last : Option Int
  line : Option Int
  current_start : Option Int
deriving Repr

/-- Update one block of the dict in place. -/
def updBlock (blocks : List (Int × BasicBlock)) (bid : Int)
    (f : BasicBlock → BasicBlock) : List (Int × BasicBlock) :=
  blocks.map (fun kb => if kb.1 = bid then (kb.1, f kb.2) else kb)

/-- One tuple of the `disassemble` scan (basic_assembler.py:326-351):
line-tag change closes the running block (with the `assert last is None`
holding by construction); a missing current block opens a fresh one, linking
the pending `last` block to it with a zero-offset fallthrough label; a
branch-target tuple records a label pointing into the current block at the
intra-block unit offset; a jump instruction closes the block as its
`jump_instruction`, anything else is appended; a terminal instruction
(`no_next`) clears both `current` and `last`. -/
def disStep (tbl : DisTables) (st : DisState) (raw : DisRaw) : DisState :=
  let st :=
    if raw.starts_line.isSome then
      let last1 := if st.current.isSome then st.current else st.last
      let cur1 : Option Int := if st.current.isSome then none else st.current
      { st with line := raw.starts_line, last := last1, current := cur1 }
    else st
  let st :=
    match st.current with
    | some _ => st
    | none =>
        let bid := st.block_id
        let blocks1 :=
          match st.last with
          | some lid =>
              updBlock st.blocks lid
                (fun b => { b with next_target := some (.vlabel bid 0) })
          | none => st.blocks
        let newBlock : BasicBlock := ⟨bid, [], none, none, st.line⟩
        { st with
          blocks := blocks1 ++ [(bid, newBlock)],
          current := some bid,
          current_start := some raw.offset,
          last := none,
          block_id := bid + 1 }
  let st :=
    if raw.is_jump_target then
      match st.current, st.current_start with
      | some cid, some cs =>
          let labels1 :=
            alSet st.labels raw.offset (.vlabel cid ((raw.offset - cs).fdiv 2))
          { st with labels := labels1 }
      | _, _ => st
    else st
  let ins : Instruction := ⟨raw.opcode, raw.argval⟩
  let st :=
    if ins.is_jump tbl then
      match st.current with
      | some cid =>
          let blocks1 :=
            updBlock st.blocks cid (fun b => { b with jump_instruction := some ins })
          { st with blocks := blocks1, last := st.current, current := none }
      | none => st
    else
      match st.current with
      | some cid =>
          let blocks1 :=
            updBlock st.blocks cid
              (fun b => { b with instructions := b.instructions ++ [ins] })
          { st with blocks := blocks1 }
      | none => st
  if ins.no_next tbl then { st with last := none, current := none } else st

/-- The `for ins in to_fix` post-pass (basic_assembler.py:352-353): every
jump instruction's argument (the target's byte offset) is replaced by the
label recorded at that offset; a jump to an unmarked offset raises
`KeyError`.  The `to_fix` list holds exactly the instructions stored in some
block's `jump_instruction` slot, so the rewrite walks those. -/
def fixBlocks (labels : List (Int × PyVal)) :
    List (Int × BasicBlock) → Except PyErr (List (Int × BasicBlock))
  | [] => .ok []
  | (k, b) :: rest => do
      let b1 ←
        match b.jump_instruction with
        | none => Except.ok b
        | some ji =>
            match ji.arg with
            | .vint off =>
                match alGet labels off with
                | some lab =>
                    Except.ok { b with jump_instruction := some ⟨ji.opcode, lab⟩ }
                | none => Except.error PyErr.keyError
            | _ => Except.error PyErr.keyError
      let rest1 ← fixBlocks labels rest
      .ok ((k, b1) :: rest1)

/-- `disassemble` (basic_assembler.py:316-354). -/
def disassemble (tbl : DisTables) (code_info : CodeInfo)
    (tuples : List DisRaw) : Except PyErr FunctionBlock := do
  let st := tuples.foldl (disStep tbl) ⟨1, [], [], none, none, none, none⟩
  let blocks ← fixBlocks st.labels st.blocks
  .ok ⟨code_info, 0, 1, blocks⟩

section AssocLemmas

variable {K V : Type} [DecidableEq K]

theorem alGet_mem {l : List (K × V)} {k : K} {v : V}
    (h : alGet l k = some v) : (k, v) ∈ l := by
  induction l with
  | nil => simp [alGet] at h
  | cons p rest ih =>
      obtain ⟨k0, v0⟩ := p
      by_cases hk : k0 = k
      · subst hk
        simp [alGet] at h
        simp [h]
      · simp [alGet, hk] at h
        exact List.mem_cons_of_mem _ (ih h)

theorem alGet_isSome_iff {l : List (K × V)} {k : K} :
    (alGet l k).isSome ↔ k ∈ l.map (·.1) := by
  induction l with
  | nil => simp [alGet]
  | cons p rest ih =>
      obtain ⟨k0, v0⟩ := p
      by_cases hk : k0 = k
      · subst hk; simp [alGet]
      · simp [alGet, hk, ih, Ne.symm hk]

theorem alGet_append_right {l1 l2 : List (K × V)} {k : K}
    (h : alGet l1 k = none) : alGet (l1 ++ l2) k = alGet l2 k := by
  induction l1 with
  | nil => simp
  | cons p rest ih =>
      obtain ⟨k0, v0⟩ := p
      by_cases hk : k0 = k
      · simp [alGet, hk] at h
      · simp [alGet, hk] at h ⊢
        exact ih h

theorem alGet_append_left {l1 l2 : List (K × V)} {k : K} {v : V}
    (h : alGet l1 k = some v) : alGet (l1 ++ l2) k = some v := by
  induction l1 with
  | nil => simp [alGet] at h
  | cons p rest ih =>
      obtain ⟨k0, v0⟩ := p
      by_cases hk : k0 = k
      · simp [alGet, hk] at h ⊢; exact h
      · simp [alGet, hk] at h ⊢
        exact ih h

theorem alGet_none_iff {l : List (K × V)} {k : K} :
    alGet l k = none ↔ k ∉ l.map (·.1) := by
  constructor
  · intro h hm
    have := alGet_isSome_iff.mpr hm
    rw [h] at this
    simp at this
  · intro h
    cases hh : alGet l k with
    | none => rfl
    | some v =>
        exact absurd (alGet_isSome_iff.mp (by simp [hh])) h

theorem alRemove_keys {l : List (K × V)} {k : K}
    (hnd : (l.map (·.1)).Nodup) :
    (alRemove l k).map (·.1) = (l.map (·.1)).erase k := by
  induction l with
  | nil => simp [alRemove]
  | cons p rest ih =>
      obtain ⟨k0, v0⟩ := p
      simp only [List.map_cons, List.nodup_cons] at hnd
      by_cases hk : k0 = k
      · subst hk
        simp [alRemove, List.erase_cons_head]
      · simp [alRemove, hk, List.erase_cons_tail, ih hnd.2, Ne.symm hk]

theorem alRemove_get_self {l : List (K × V)} {k : K}
    (hnd : (l.map (·.1)).Nodup) : alGet (alRemove l k) k = none := by
  induction l with
  | nil => simp [alRemove, alGet]
  | cons p rest ih =>
      obtain ⟨k0, v0⟩ := p
      simp only [List.map_cons, List.nodup_cons] at hnd
      by_cases hk : k0 = k
      · subst hk
        simp only [alRemove, if_pos rfl]
        rw [alGet_none_iff]
        exact fun hm => hnd.1 hm
      · simp [alRemove, alGet, hk, ih hnd.2]

theorem alRemove_get_other {l : List (K × V)} {k k2 : K} (hne : k2 ≠ k) :
    alGet (alRemove l k) k2 = alGet l k2 := by
  induction l with
  | nil => simp [alRemove]
  | cons p rest ih =>
      obtain ⟨k0, v0⟩ := p
      by_cases hk : k0 = k
      · subst hk
        simp [alRemove, alGet, Ne.symm hne]
      · by_cases hk2 : k0 = k2
        · subst hk2
          simp [alRemove, alGet, hk]
        · simp [alRemove, alGet, hk, hk2, ih]

theorem alRemove_perm {l : List (K × V)} {k : K} {v : V}
    (hnd : (l.map (·.1)).Nodup) (h : alGet l k = some v) :
    l.Perm ((k, v) :: alRemove l k) := by
  induction l with
  | nil => simp [alGet] at h
  | cons p rest ih =>
      obtain ⟨k0, v0⟩ := p
      simp only [List.map_cons, List.nodup_cons] at hnd
      by_cases hk : k0 = k
      · subst hk
        simp only [alGet, if_pos rfl] at h
        simp only [alRemove, if_pos rfl]
        cases h
        exact List.Perm.refl _
      · simp only [alGet, hk, ite_false, if_neg, Bool.false_eq_true] at h
        simp only [alRemove, hk, ite_false, if_neg, Bool.false_eq_true]
        have h1 : ((k0, v0) :: rest).Perm ((k0, v0) :: (k, v) :: alRemove rest k) :=
          List.Perm.cons _ (ih hnd.2 h)
        exact h1.trans (List.Perm.swap (k, v) (k0, v0) _)

theorem alSet_get_self {l : List (K × V)} {k : K} {v : V} :
    alGet (alSet l k v) k = some v := by
  induction l with
  | nil => simp [alSet, alGet]
  | cons p rest ih =>
      obtain ⟨k0, v0⟩ := p
      by_cases hk : k0 = k
      · subst hk; simp [alSet, alGet]
      · simp [alSet, alGet, hk, ih]

theorem alSet_get_other {l : List (K × V)} {k k2 : K} {v : V}
    (hne : k2 ≠ k) : alGet (alSet l k v) k2 = alGet l k2 := by
  induction l with
  | nil => simp [alSet, alGet, Ne.symm hne]
  | cons p rest ih =>
      obtain ⟨k0, v0⟩ := p
      by_cases hk : k0 = k
      · subst hk
        simp [alSet, alGet, Ne.symm hne]
      · by_cases hk2 : k0 = k2
        · subst hk2; simp [alSet, alGet, hk]
        · simp [alSet, alGet, hk, hk2, ih]

theorem alSet_keys_mem {l : List (K × V)} {k : K} {v : V}
    (h : k ∈ l.map (·.1)) : (alSet l k v).map (·.1) = l.map (·.1) := by
  induction l with
  | nil => simp at h
  | cons p rest ih =>
      obtain ⟨k0, v0⟩ := p
      by_cases hk : k0 = k
      · subst hk; simp [alSet]
      · simp only [List.map_cons, List.mem_cons] at h
        rcases h with h | h
        · exact absurd h.symm hk
        · simp [alSet, hk, ih h]

theorem mem_alGet {K V : Type} [DecidableEq K] {l : List (K × V)} {k : K}
    {v : V} (hnd : (l.map (·.1)).Nodup) (h : (k, v) ∈ l) :
    alGet l k = some v := by
  induction l with
  | nil => simp at h
  | cons p rest ih =>
      obtain ⟨k0, v0⟩ := p
      simp only [List.map_cons, List.nodup_cons] at hnd
      rcases List.mem_cons.mp h with h | h
      · cases h
        simp [alGet]
      · have hk : k0 ≠ k := by
          intro he
          subst he
          exact hnd.1 (List.mem_map.mpr ⟨(k0, v), h, rfl⟩)
        simp [alGet, hk, ih hnd.2 h]

theorem alSet_length {K V : Type} [DecidableEq K] (l : List (K × V)) (k : K)
    (v : V) (h : k ∈ l.map (·.1)) : (alSet l k v).length = l.length := by
  have := alSet_keys_mem (l := l) (v := v) h
  have h1 : ((alSet l k v).map (·.1)).length = (l.map (·.1)).length := by
    rw [this]
  simpa using h1

end AssocLemmas

/-- The fallthrough link of a block: the target id of its
`next_target` label (spec §4.2's same-target fallthrough). -/
def linkOf (b : BasicBlock) : Option Int :=
  match b.next_target with
  | some (.vlabel t _) => some t
  | _ => none

/-- The run (maximal fallthrough chain) of blocks starting at id `k`,
following `next_target` links through the dict; this is the specification's
notion of a spliced run, defined independently of the splice algorithm. -/
def blockChain (blocks : List (Int × BasicBlock)) : Nat → Int → List BasicBlock
  | 0, _ => []
  | fuel + 1, k =>
      match alGet blocks k with
      | none => []
      | some b =>
          b :: (match linkOf b with
            | none => []
            | some t => blockChain blocks fuel t)

/-- The ids of all fallthrough targets of the graph. -/
def targetsOf (blocks : List (Int × BasicBlock)) : List Int :=
  blocks.filterMap (fun p => linkOf p.2)

/-- The ids of the blocks that head a run: the ids nobody falls through to,
in dict order. -/
def headsOf (blocks : List (Int × BasicBlock)) : List Int :=
  blocks.filterMap (fun p => if p.1 ∈ targetsOf blocks then none else some p.1)

/-- A run fragment as maintained by the splice algorithm: a nonempty chain of
consecutively linked blocks, each being the graph's block of its id, headed by
the block with id `h`. -/
structure IsSeg (blocks : List (Int × BasicBlock)) (h : Int)
    (seg : List BasicBlock) : Prop where
  nonempty : seg ≠ []
  headId : seg.head?.map (·.id) = some h
  inDict : ∀ b ∈ seg, alGet blocks b.id = some b
  chain : seg.Chain' (fun a b => linkOf a = some b.id)

/-- The loop invariant of the splice phase, tying `runs_by_target` and
`runs_by_start` together: the runs are disjoint chains covering every block,
and `runs_by_target` holds exactly one entry per run that still ends in a
pending fallthrough, keyed by the target id (which itself heads a run) and
valued (through the Python list aliasing) by the head of that run. -/
structure SpliceInv (blocks : List (Int × BasicBlock))
    (rbt : List (Int × Int)) (rbs : List (Int × List BasicBlock)) : Prop where
  segs : ∀ p ∈ rbs, IsSeg blocks p.1 p.2
  perm : (rbs.flatMap (·.2)).Perm (blocks.map (·.2))
  keysNodup : (rbs.map (·.1)).Nodup
  rbtNodup : (rbt.map (·.1)).Nodup
  rbtSound : ∀ q ∈ rbt, ∃ seg, alGet rbs q.2 = some seg
      ∧ seg.getLast?.bind linkOf = some q.1
  rbtComplete : ∀ p ∈ rbs, ∀ t, p.2.getLast?.bind linkOf = some t →
      alGet rbt t = some p.1
  rbtKeyHead : ∀ q ∈ rbt, (alGet rbs q.1).isSome

section SpliceLemmas

theorem alRemove_sublist {K V : Type} [DecidableEq K]
    (l : List (K × V)) (k : K) : (alRemove l k).Sublist l := by
  induction l with
  | nil => simp [alRemove]
  | cons p rest ih =>
      obtain ⟨k0, v0⟩ := p
      by_cases hk : k0 = k
      · simp [alRemove, hk]
      · simp only [alRemove, hk, ite_false, if_neg, Bool.false_eq_true]
        exact ih.cons₂ _

theorem mem_alSet {K V : Type} [DecidableEq K] {l : List (K × V)} {k : K}
    {v : V} {q : K × V} (hnd : (l.map (·.1)).Nodup) (hq : q ∈ alSet l k v) :
    q = (k, v) ∨ (q ∈ l ∧ q.1 ≠ k) := by
  induction l with
  | nil =>
      simp [alSet] at hq
      exact Or.inl hq
  | cons p rest ih =>
      obtain ⟨k0, v0⟩ := p
      simp only [List.map_cons, List.nodup_cons] at hnd
      by_cases hk : k0 = k
      · subst hk
        rw [show alSet ((k0, v0) :: rest) k0 v = (k0, v) :: rest by
          simp [alSet]] at hq
        rcases List.mem_cons.mp hq with hq1 | hq1
        · exact Or.inl hq1
        · by_cases hqk : q.1 = k0
          · exact absurd (List.mem_map.mpr ⟨q, hq1, hqk⟩) hnd.1
          · exact Or.inr ⟨List.mem_cons_of_mem _ hq1, hqk⟩
      · rw [show alSet ((k0, v0) :: rest) k v = (k0, v0) :: alSet rest k v by
          simp [alSet, hk]] at hq
        rcases List.mem_cons.mp hq with hq1 | hq1
        · subst hq1
          exact Or.inr ⟨List.mem_cons_self _ _, hk⟩
        · rcases ih hnd.2 hq1 with h | h
          · exact Or.inl h
          · exact Or.inr ⟨List.mem_cons_of_mem _ h.1, h.2⟩

theorem alGet_concat_ne {K V : Type} [DecidableEq K] {l : List (K × V)}
    {k0 k : K} {v0 v : V} (h : alGet (l ++ [(k0, v0)]) k = some v)
    (hne : k ≠ k0) : alGet l k = some v := by
  cases hl : alGet l k with
  | some w =>
      rw [alGet_append_left hl] at h
      exact h
  | none =>
      rw [alGet_append_right hl] at h
      simp [alGet, Ne.symm hne] at h

theorem mem_of_getLast?_eq {α : Type} {l : List α} {b : α}
    (h : l.getLast? = some b) : b ∈ l := by
  have hx : b ∈ l.getLast? := by simp [h]
  rcases List.mem_getLast?_eq_getLast hx with ⟨hne, hb⟩
  exact hb ▸ List.getLast_mem hne

theorem seg_rank_le {blocks : List (Int × BasicBlock)} {rank : Int → Nat}
    (hrank : ∀ p ∈ blocks, ∀ t, linkOf p.2 = some t → rank p.1 < rank t) :
    ∀ (seg : List BasicBlock) (h : Int) (b : BasicBlock),
    IsSeg blocks h seg → seg.getLast? = some b → rank h ≤ rank b.id := by
  intro seg
  induction seg with
  | nil => intro h b _ hlast; simp at hlast
  | cons a rest ih =>
      intro h b hseg hlast
      have hh : a.id = h := by simpa using hseg.headId
      cases rest with
      | nil =>
          simp at hlast
          subst hlast
          exact Nat.le_of_eq (congrArg rank hh.symm)
      | cons c rest2 =>
          have hchain := hseg.chain
          rw [List.chain'_cons] at hchain
          have ha : alGet blocks a.id = some a :=
            hseg.inDict a (List.mem_cons_self _ _)
          have hlt : rank a.id < rank c.id :=
            hrank (a.id, a) (alGet_mem ha) c.id hchain.1
          have hseg2 : IsSeg blocks c.id (c :: rest2) :=
            { nonempty := by simp
              headId := by simp
              inDict := fun x hx => hseg.inDict x (List.mem_cons_of_mem _ hx)
              chain := hchain.2 }
          have hlast2 : (c :: rest2).getLast? = some b := by
            rw [← hlast, List.getLast?_cons_cons]
          have h2 := ih c.id b hseg2 hlast2
          calc rank h = rank a.id := congrArg rank hh.symm
            _ ≤ rank b.id := Nat.le_trans (Nat.le_of_lt hlt) h2

theorem seg_rank_lt_target {blocks : List (Int × BasicBlock)}
    {rank : Int → Nat}
    (hrank : ∀ p ∈ blocks, ∀ t, linkOf p.2 = some t → rank p.1 < rank t)
    {seg : List BasicBlock} {h t : Int} (hseg : IsSeg blocks h seg)
    (hlink : seg.getLast?.bind linkOf = some t) : rank h < rank t := by
  cases hlast : seg.getLast? with
  | none => rw [hlast] at hlink; simp at hlink
  | some b =>
      rw [hlast] at hlink
      simp only [Option.some_bind] at hlink
      have h1 := seg_rank_le hrank seg h b hseg hlast
      have hb : alGet blocks b.id = some b :=
        hseg.inDict b (mem_of_getLast?_eq hlast)
      have h2 : rank b.id < rank t := hrank (b.id, b) (alGet_mem hb) t hlink
      exact Nat.lt_of_le_of_lt h1 h2

theorem IsSeg.append {blocks : List (Int × BasicBlock)} {h1 h2 : Int}
    {seg1 seg2 : List BasicBlock} (hs1 : IsSeg blocks h1 seg1)
    (hs2 : IsSeg blocks h2 seg2)
    (hbridge : seg1.getLast?.bind linkOf = some h2) :
    IsSeg blocks h1 (seg1 ++ seg2) := by
  refine ⟨?_, ?_, ?_, ?_⟩
  · intro h
    exact hs1.nonempty (List.append_eq_nil.mp h).1
  · rw [List.head?_append_of_ne_nil _ hs1.nonempty]
    exact hs1.headId
  · intro b hb
    rcases List.mem_append.mp hb with hb | hb
    · exact hs1.inDict b hb
    · exact hs2.inDict b hb
  · refine hs1.chain.append hs2.chain ?_
    intro x hx y hy
    cases hlast : seg1.getLast? with
    | none => rw [hlast] at hx; simp at hx
    | some b =>
        rw [hlast] at hx hbridge
        simp only [Option.mem_def, Option.some.injEq] at hx
        subst hx
        simp only [Option.some_bind] at hbridge
        have hyid : y.id = h2 := by
          cases seg2 with
          | nil => simp at hy
          | cons c r =>
              simp only [List.head?_cons, Option.mem_def,
                Option.some.injEq] at hy
              subst hy
              simpa using hs2.headId
        rw [hbridge, hyid]

/-- The splice loop, run on a state satisfying the invariant with enough fuel
(one unit per pending target), succeeds and ends with no pending targets:
the result is a set of maximal runs covering every block exactly once. -/
theorem spliceLoop_ok {blocks : List (Int × BasicBlock)} {rank : Int → Nat}
    (hshape : ∀ p ∈ blocks, ∀ nt, p.2.next_target = some nt →
      ∃ t2, nt = PyVal.vlabel t2 0)
    (hrank : ∀ p ∈ blocks, ∀ t, linkOf p.2 = some t → rank p.1 < rank t) :
    ∀ (fuel : Nat) (rbt : List (Int × Int))
      (rbs : List (Int × List BasicBlock)),
    rbt.length ≤ fuel → SpliceInv blocks rbt rbs →
    ∃ final, spliceLoop fuel rbt rbs = .ok final
      ∧ SpliceInv blocks [] final := by
  intro fuel
  induction fuel with
  | zero =>
      intro rbt rbs hlen hinv
      have hnil : rbt = [] :=
        List.eq_nil_of_length_eq_zero (Nat.le_zero.mp hlen)
      subst hnil
      exact ⟨rbs, rfl, hinv⟩
  | succ fuel ih =>
      intro rbt rbs hlen hinv
      rcases List.eq_nil_or_concat rbt with rfl | ⟨rbt1, q, hrbt⟩
      · exact ⟨rbs, rfl, hinv⟩
      rw [List.concat_eq_append] at hrbt
      subst hrbt
      obtain ⟨tid, h⟩ := q
      -- the popped entry and the two runs it splices
      have hmemq : (tid, h) ∈ rbt1 ++ [(tid, h)] := by simp
      obtain ⟨start_run, hgetS, hlinkS⟩ := hinv.rbtSound _ hmemq
      have hSegS : IsSeg blocks h start_run := hinv.segs _ (alGet_mem hgetS)
      have hrankSh : rank h < rank tid := seg_rank_lt_target hrank hSegS hlinkS
      have hne_th : tid ≠ h := by
        intro e; rw [e] at hrankSh; exact Nat.lt_irrefl _ hrankSh
      obtain ⟨end_run, hgetE⟩ :=
        Option.isSome_iff_exists.mp (hinv.rbtKeyHead _ hmemq)
      have hSegE : IsSeg blocks tid end_run := hinv.segs _ (alGet_mem hgetE)
      have hget1E : alGet (alRemove rbs h) tid = some end_run := by
        rw [alRemove_get_other hne_th]; exact hgetE
      -- key bookkeeping
      have hK := hinv.keysNodup
      have hkeys1 : (alRemove rbs h).map (·.1) = (rbs.map (·.1)).erase h :=
        alRemove_keys hK
      have hK1 : ((alRemove rbs h).map (·.1)).Nodup := by
        rw [hkeys1]; exact hK.erase h
      have hkeys2 : (alRemove (alRemove rbs h) tid).map (·.1)
          = ((rbs.map (·.1)).erase h).erase tid := by
        rw [alRemove_keys hK1, hkeys1]
      have hK2 : ((alRemove (alRemove rbs h) tid).map (·.1)).Nodup := by
        rw [hkeys2]; exact (hK.erase h).erase tid
      have hHnotin2 : h ∉ (alRemove (alRemove rbs h) tid).map (·.1) := by
        rw [hkeys2]
        intro hmem
        exact hK.not_mem_erase (List.mem_of_mem_erase hmem)
      have hTidnotin2 : tid ∉ (alRemove (alRemove rbs h) tid).map (·.1) := by
        rw [hkeys2]
        exact (hK.erase h).not_mem_erase
      -- the spliced run
      have hrunlast : (start_run ++ end_run).getLast? = end_run.getLast? :=
        List.getLast?_append_of_ne_nil _ hSegE.nonempty
      have hSegRun : IsSeg blocks h (start_run ++ end_run) :=
        hSegS.append hSegE hlinkS
      obtain ⟨lastBB, hlastBB⟩ := Option.isSome_iff_exists.mp
        (List.getLast?_isSome.mpr hSegE.nonempty)
      have hlastMem : lastBB ∈ end_run := mem_of_getLast?_eq hlastBB
      have hlastDict : (lastBB.id, lastBB) ∈ blocks :=
        alGet_mem (hSegE.inDict lastBB hlastMem)
      -- shared facts about the reduced state
      have hget2 : ∀ x : Int, x ≠ h → x ≠ tid →
          alGet (alRemove (alRemove rbs h) tid ++ [(h, start_run ++ end_run)]) x
            = alGet rbs x := by
        intro x hxh hxt
        have e1 : alGet (alRemove (alRemove rbs h) tid) x = alGet rbs x := by
          rw [alRemove_get_other hxt, alRemove_get_other hxh]
        cases hx : alGet rbs x with
        | some v => exact alGet_append_left (e1.trans hx)
        | none =>
            rw [alGet_append_right (e1.trans hx)]
            simp [alGet, Ne.symm hxh]
      have hgetH2 : alGet
          (alRemove (alRemove rbs h) tid ++ [(h, start_run ++ end_run)]) h
            = some (start_run ++ end_run) := by
        rw [alGet_append_right (alGet_none_iff.mpr hHnotin2)]
        simp [alGet]
      -- permutation bookkeeping
      have hperm2 : ((alRemove (alRemove rbs h) tid
            ++ [(h, start_run ++ end_run)]).flatMap (·.2)).Perm
          (blocks.map (·.2)) := by
        have p1 : rbs.Perm ((h, start_run) :: alRemove rbs h) :=
          alRemove_perm hK hgetS
        have p2 : (alRemove rbs h).Perm
            ((tid, end_run) :: alRemove (alRemove rbs h) tid) :=
          alRemove_perm hK1 hget1E
        have pf : (rbs.flatMap (·.2)).Perm
            (start_run ++ (end_run
              ++ (alRemove (alRemove rbs h) tid).flatMap (·.2))) := by
          have q1 := p1.flatMap_right (·.2)
          have q2 := p2.flatMap_right (·.2)
          simp only [List.flatMap_cons] at q1 q2
          exact q1.trans (q2.append_left start_run)
        have goal1 : ((alRemove (alRemove rbs h) tid
              ++ [(h, start_run ++ end_run)]).flatMap (·.2)).Perm
            (rbs.flatMap (·.2)) := by
          rw [List.flatMap_append]
          simp only [List.flatMap_cons, List.flatMap_nil, List.append_nil]
          refine List.perm_append_comm.trans ?_
          rw [List.append_assoc]
          exact pf.symm
        exact goal1.trans hinv.perm
      -- keys of the new run map
      have hkeysNodup2 : ((alRemove (alRemove rbs h) tid
            ++ [(h, start_run ++ end_run)]).map (·.1)).Nodup := by
        rw [List.map_append]
        rw [List.nodup_append]
        refine ⟨hK2, by simp, ?_⟩
        intro x hx hx2
        simp only [List.map_cons, List.map_nil, List.mem_cons,
          List.not_mem_nil, or_false] at hx2
        subst hx2
        exact hHnotin2 hx
      -- segments of the new run map
      have hsegs2 : ∀ p ∈ (alRemove (alRemove rbs h) tid
            ++ [(h, start_run ++ end_run)]), IsSeg blocks p.1 p.2 := by
        intro p hp
        rcases List.mem_append.mp hp with hp | hp
        · exact hinv.segs p
            (((alRemove_sublist _ _).trans (alRemove_sublist _ _)).mem hp)
        · simp only [List.mem_cons, List.not_mem_nil, or_false] at hp
          subst hp
          exact hSegRun
      -- facts about rbt1 entries
      have hrbtNodup := hinv.rbtNodup
      have hrbt1Nodup : (rbt1.map (·.1)).Nodup := by
        rw [List.map_append, List.nodup_append] at hrbtNodup
        exact hrbtNodup.1
      have htid_notin1 : tid ∉ rbt1.map (·.1) := by
        rw [List.map_append, List.nodup_append] at hrbtNodup
        intro hmem
        exact hrbtNodup.2.2 hmem (by simp)
      have hq1_ne_tid : ∀ q ∈ rbt1, q.1 ≠ tid := by
        intro q hq e
        exact htid_notin1 (List.mem_map.mpr ⟨q, hq, e⟩)
      have hq2_ne_h : ∀ q ∈ rbt1, q.2 ≠ h := by
        intro q hq e
        obtain ⟨seg, hgs, hls⟩ :=
          hinv.rbtSound q (List.mem_append_left _ hq)
        rw [e, hgetS] at hgs
        cases hgs
        rw [hlinkS] at hls
        cases hls
        exact hq1_ne_tid q hq rfl
      have hAlGetRbtTid : alGet (rbt1 ++ [(tid, h)]) tid = some h :=
        mem_alGet hrbtNodup hmemq
      have hisNone : (alGet rbs tid).isNone = false := by rw [hgetE]; rfl
      -- case split on the last block's fallthrough
      cases hnt : lastBB.next_target with
      | none =>
          -- the spliced run does not link further; recurse with rbt1
          have hlinkLastNone : linkOf lastBB = none := by
            simp [linkOf, hnt]
          have hunfold : spliceLoop (fuel + 1) (rbt1 ++ [(tid, h)]) rbs
              = spliceLoop fuel rbt1 (alRemove (alRemove rbs h) tid
                  ++ [(h, start_run ++ end_run)]) := by
            conv_lhs => rw [spliceLoop.eq_def]
            simp only [List.getLast?_concat,
              List.dropLast_concat, hisNone, hgetS, hget1E, hrunlast,
              hlastBB, hnt, Bool.false_eq_true, ite_false, if_neg]
          rw [hunfold]
          have hq2_ne_tid : ∀ q ∈ rbt1, q.2 ≠ tid := by
            intro q hq e
            obtain ⟨seg, hgs, hls⟩ :=
              hinv.rbtSound q (List.mem_append_left _ hq)
            rw [e, hgetE] at hgs
            cases hgs
            rw [hlastBB] at hls
            simp only [Option.some_bind] at hls
            rw [hlinkLastNone] at hls
            cases hls
          have hlen1 : rbt1.length ≤ fuel := by
            have := hlen
            simp only [List.length_append, List.length_cons,
              List.length_nil] at this
            omega
          refine ih rbt1 _ hlen1 ?_
          refine ⟨hsegs2, hperm2, hkeysNodup2, hrbt1Nodup, ?_, ?_, ?_⟩
          · intro q hq
            obtain ⟨seg, hgs, hls⟩ :=
              hinv.rbtSound q (List.mem_append_left _ hq)
            refine ⟨seg, ?_, hls⟩
            rw [hget2 q.2 (hq2_ne_h q hq) (hq2_ne_tid q hq)]
            exact hgs
          · intro p hp t hlt
            rcases List.mem_append.mp hp with hp | hp
            · have hpmem : p ∈ rbs :=
                ((alRemove_sublist _ _).trans (alRemove_sublist _ _)).mem hp
              have hold := hinv.rbtComplete p hpmem t hlt
              have ht_ne_tid : t ≠ tid := by
                intro e
                rw [e, hAlGetRbtTid] at hold
                cases hold
                exact hHnotin2 (List.mem_map.mpr ⟨p, hp, rfl⟩)
              exact alGet_concat_ne hold ht_ne_tid
            · simp only [List.mem_cons, List.not_mem_nil, or_false] at hp
              subst hp
              rw [hrunlast, hlastBB] at hlt
              simp only [Option.some_bind] at hlt
              rw [hlinkLastNone] at hlt
              cases hlt
          · intro q hq
            have hold := hinv.rbtKeyHead q (List.mem_append_left _ hq)
            by_cases hqh : q.1 = h
            · rw [hqh, hgetH2]; rfl
            · rw [hget2 q.1 hqh (hq1_ne_tid q hq)]
              exact hold
      | some nt =>
          obtain ⟨tid2, hnt2⟩ := hshape (lastBB.id, lastBB) hlastDict nt hnt
          subst hnt2
          have hlinkLast : linkOf lastBB = some tid2 := by
            simp [linkOf, hnt]
          have hlinkE : end_run.getLast?.bind linkOf = some tid2 := by
            rw [hlastBB]
            simp [hlinkLast]
          have hrankEt : rank tid < rank tid2 :=
            seg_rank_lt_target hrank hSegE hlinkE
          have hne_t2tid : tid2 ≠ tid := by
            intro e; rw [e] at hrankEt; exact Nat.lt_irrefl _ hrankEt
          have hne_t2h : tid2 ≠ h := by
            intro e
            rw [e] at hrankEt
            exact Nat.lt_irrefl _ (Nat.lt_trans hrankSh hrankEt)
          have hComplete : alGet (rbt1 ++ [(tid, h)]) tid2 = some tid :=
            hinv.rbtComplete (tid, end_run) (alGet_mem hgetE) tid2 hlinkE
          have hget1t2 : alGet rbt1 tid2 = some tid :=
            alGet_concat_ne hComplete hne_t2tid
          have ht2_in1 : tid2 ∈ rbt1.map (·.1) :=
            alGet_isSome_iff.mp (by rw [hget1t2]; rfl)
          have hunfold : spliceLoop (fuel + 1) (rbt1 ++ [(tid, h)]) rbs
              = spliceLoop fuel (alSet rbt1 tid2 h)
                  (alRemove (alRemove rbs h) tid
                    ++ [(h, start_run ++ end_run)]) := by
            conv_lhs => rw [spliceLoop.eq_def]
            simp only [List.getLast?_concat,
              List.dropLast_concat, hisNone, hgetS, hget1E, hrunlast,
              hlastBB, hnt, hget1t2, Bool.false_eq_true, ite_false, if_neg,
              ite_true, if_pos]
          rw [hunfold]
          have hq2tid_q1 : ∀ q ∈ rbt1, q.2 = tid → q.1 = tid2 := by
            intro q hq e
            obtain ⟨seg, hgs, hls⟩ :=
              hinv.rbtSound q (List.mem_append_left _ hq)
            rw [e, hgetE] at hgs
            cases hgs
            rw [hlinkE] at hls
            cases hls
            rfl
          have hlen1 : (alSet rbt1 tid2 h).length ≤ fuel := by
            rw [alSet_length _ _ _ ht2_in1]
            have := hlen
            simp only [List.length_append, List.length_cons,
              List.length_nil] at this
            omega
          refine ih (alSet rbt1 tid2 h) _ hlen1 ?_
          have hsetNodup : ((alSet rbt1 tid2 h).map (·.1)).Nodup := by
            rw [alSet_keys_mem ht2_in1]
            exact hrbt1Nodup
          refine ⟨hsegs2, hperm2, hkeysNodup2, hsetNodup, ?_, ?_, ?_⟩
          · intro q hq
            rcases mem_alSet hrbt1Nodup hq with hq1 | ⟨hq1, hqne⟩
            · subst hq1
              refine ⟨start_run ++ end_run, hgetH2, ?_⟩
              rw [hrunlast, hlastBB]
              simp [hlinkLast]
            · obtain ⟨seg, hgs, hls⟩ :=
                hinv.rbtSound q (List.mem_append_left _ hq1)
              have hq2t : q.2 ≠ tid := by
                intro e
                exact hqne (hq2tid_q1 q hq1 e)
              refine ⟨seg, ?_, hls⟩
              rw [hget2 q.2 (hq2_ne_h q hq1) hq2t]
              exact hgs
          · intro p hp t hlt
            rcases List.mem_append.mp hp with hp | hp
            · have hpmem : p ∈ rbs :=
                ((alRemove_sublist _ _).trans (alRemove_sublist _ _)).mem hp
              have hold := hinv.rbtComplete p hpmem t hlt
              have ht_ne_tid : t ≠ tid := by
                intro e
                rw [e, hAlGetRbtTid] at hold
                cases hold
                exact hHnotin2 (List.mem_map.mpr ⟨p, hp, rfl⟩)
              have hold1 : alGet rbt1 t = some p.1 :=
                alGet_concat_ne hold ht_ne_tid
              have ht_ne_t2 : t ≠ tid2 := by
                intro e
                rw [e, hget1t2] at hold1
                cases hold1
                exact hTidnotin2 (List.mem_map.mpr ⟨p, hp, rfl⟩)
              rw [alSet_get_other ht_ne_t2]
              exact hold1
            · simp only [List.mem_cons, List.not_mem_nil, or_false] at hp
              subst hp
              rw [hrunlast, hlastBB] at hlt
              simp only [Option.some_bind] at hlt
              rw [hlinkLast] at hlt
              cases hlt
              exact alSet_get_self
          · intro q hq
            rcases mem_alSet hrbt1Nodup hq with hq1 | ⟨hq1, _⟩
            · subst hq1
              have hold := hinv.rbtKeyHead (tid2, tid)
                (alGet_mem hComplete)
              rw [hget2 tid2 hne_t2h hne_t2tid]
              exact hold
            · have hold := hinv.rbtKeyHead q (List.mem_append_left _ hq1)
              by_cases hqh : q.1 = h
              · rw [hqh, hgetH2]; rfl
              · rw [hget2 q.1 hqh (hq1_ne_tid q hq1)]
                exact hold

theorem flatMap_congr_mem {α β : Type} {l : List α} {f g : α → List β}
    (h : ∀ a ∈ l, f a = g a) : l.flatMap f = l.flatMap g := by
  induction l with
  | nil => rfl
  | cons a rest ih =>
      simp only [List.flatMap_cons]
      rw [h a (List.mem_cons_self _ _),
        ih (fun x hx => h x (List.mem_cons_of_mem _ hx))]

theorem alRemove_length_mem {K V : Type} [DecidableEq K]
    {l : List (K × V)} {k : K} (h : k ∈ l.map (·.1)) :
    (alRemove l k).length + 1 = l.length := by
  induction l with
  | nil => simp at h
  | cons p rest ih =>
      obtain ⟨k0, v0⟩ := p
      by_cases hk : k0 = k
      · simp [alRemove, hk]
      · simp only [List.map_cons, List.mem_cons] at h
        rcases h with h | h
        · exact absurd h.symm hk
        · simp only [alRemove, hk, ite_false, if_neg, Bool.false_eq_true,
            List.length_cons]
          rw [← ih h]

theorem alMinKey_spec {V : Type} {l : List (Int × V)} {m : Int}
    (h : alMinKey l = some m) :
    m ∈ l.map (·.1) ∧ ∀ k ∈ l.map (·.1), m ≤ k := by
  induction l generalizing m with
  | nil => simp [alMinKey] at h
  | cons p rest ih =>
      obtain ⟨k0, v0⟩ := p
      simp only [alMinKey] at h
      cases hr : alMinKey rest with
      | none =>
          rw [hr] at h
          cases h
          have : rest = [] := by
            cases rest with
            | nil => rfl
            | cons q r =>
                simp only [alMinKey] at hr
                cases h2 : alMinKey r <;> simp [h2] at hr
          subst this
          simp
      | some m2 =>
          rw [hr] at h
          cases h
          obtain ⟨hm2, hle⟩ := ih hr
          constructor
          · rcases le_or_lt k0 m2 with hc | hc
            · simp [min_eq_left hc]
            · simp only [min_eq_right (le_of_lt hc), List.map_cons,
                List.mem_cons]
              exact Or.inr hm2
          · intro k hk
            simp only [List.map_cons, List.mem_cons] at hk
            rcases hk with hk | hk
            · subst hk
              exact min_le_left _ _
            · exact le_trans (min_le_right _ _) (hle k hk)

theorem alMinKey_isSome {V : Type} {l : List (Int × V)} (h : l ≠ []) :
    (alMinKey l).isSome := by
  cases l with
  | nil => exact absurd rfl h
  | cons p rest =>
      simp only [alMinKey]
      cases alMinKey rest <;> simp

theorem length_le_flatMap {α β : Type} {l : List α} {f : α → List β} {a : α}
    (h : a ∈ l) : (f a).length ≤ (l.flatMap f).length := by
  induction l with
  | nil => simp at h
  | cons x rest ih =>
      rcases List.mem_cons.mp h with h | h
      · subst h
        simp [List.flatMap_cons]
      · simp only [List.flatMap_cons, List.length_append]
        exact le_add_self.trans (Nat.add_le_add_left (ih h) _)

theorem chain'_mem_tail_pred {α : Type} {R : α → α → Prop} :
    ∀ {l : List α}, l.Chain' R → ∀ {b}, b ∈ l.tail → ∃ a ∈ l, R a b := by
  intro l
  induction l with
  | nil => intro _ b hb; simp at hb
  | cons x rest ih =>
      intro hc b hb
      simp only [List.tail_cons] at hb
      cases rest with
      | nil => simp at hb
      | cons y r =>
          rw [List.chain'_cons] at hc
          rcases List.mem_cons.mp hb with hb | hb
          · subst hb
            exact ⟨x, List.mem_cons_self _ _, hc.1⟩
          · obtain ⟨a, ha, hr⟩ := ih hc.2 hb
            exact ⟨a, List.mem_cons_of_mem _ ha, hr⟩

theorem chain'_mem_not_last_succ {α : Type} {R : α → α → Prop} :
    ∀ {l : List α}, l.Chain' R → ∀ {b}, b ∈ l → l.getLast? ≠ some b →
    ∃ c ∈ l.tail, R b c := by
  intro l
  induction l with
  | nil => intro _ b hb; simp at hb
  | cons x rest ih =>
      intro hc b hb hlast
      cases rest with
      | nil =>
          simp only [List.mem_singleton] at hb
          subst hb
          simp at hlast
      | cons y r =>
          rw [List.chain'_cons] at hc
          rcases List.mem_cons.mp hb with hb | hb
          · subst hb
            exact ⟨y, List.mem_cons_self _ _, hc.1⟩
          · have hlast2 : (y :: r).getLast? ≠ some b := by
              rw [← List.getLast?_cons_cons (a := x)]
              exact hlast
            obtain ⟨c, hcm, hr⟩ := ih hc.2 hb hlast2
            exact ⟨c, List.mem_cons_of_mem _ hcm, hr⟩

theorem keys_flatMap_lookup {K V : Type} [DecidableEq K] :
    ∀ (l : List (K × List V)), (l.map (·.1)).Nodup →
    (l.map (·.1)).flatMap (fun k => (alGet l k).getD []) = l.flatMap (·.2) := by
  intro l
  induction l with
  | nil => intro _; rfl
  | cons p rest ih =>
      intro hnd
      obtain ⟨k0, v0⟩ := p
      simp only [List.map_cons, List.nodup_cons] at hnd
      simp only [List.map_cons, List.flatMap_cons]
      have h1 : alGet ((k0, v0) :: rest) k0 = some v0 := by simp [alGet]
      rw [h1]
      have h2 : (rest.map (·.1)).flatMap
          (fun k => (alGet ((k0, v0) :: rest) k).getD [])
          = (rest.map (·.1)).flatMap (fun k => (alGet rest k).getD []) := by
        refine flatMap_congr_mem ?_
        intro k hk
        have hne : k0 ≠ k := by
          intro e; subst e; exact hnd.1 hk
        simp [alGet, hne]
      rw [h2, ih hnd.2]
      rfl

/-- Phase 1 characterization: with unique block ids, unique targets and
well-shaped labels, `buildRuns` succeeds and returns the singleton runs (in
block order) and one pending-target entry per linking block. -/
theorem buildRuns_eq :
    ∀ (bbs : List BasicBlock) (rbs0 : List (Int × List BasicBlock))
      (rbt0 : List (Int × Int)),
    (rbs0.map (·.1) ++ bbs.map (·.id)).Nodup →
    (rbt0.map (·.1) ++ bbs.filterMap linkOf).Nodup →
    (∀ b ∈ bbs, ∀ nt, b.next_target = some nt →
        ∃ t, nt = PyVal.vlabel t 0) →
    buildRuns bbs rbs0 rbt0 = .ok
      (rbs0 ++ bbs.map (fun b => (b.id, [b])),
       rbt0 ++ bbs.filterMap (fun b => (linkOf b).map (fun t => (t, b.id)))) := by
  intro bbs
  induction bbs with
  | nil =>
      intro rbs0 rbt0 _ _ _
      simp [buildRuns]
  | cons b rest ih =>
      intro rbs0 rbt0 hid htg hsh
      have hbid : b.id ∉ rbs0.map (·.1) := by
        rw [List.nodup_append] at hid
        intro hmem
        exact hid.2.2 hmem (by simp)
      have hgetb : (alGet rbs0 b.id).isSome = false := by
        cases hx : alGet rbs0 b.id with
        | none => rfl
        | some v => exact absurd (alGet_isSome_iff.mp (by rw [hx]; rfl)) hbid
      have hid2 : ∀ (x : Int × List BasicBlock),
          ((rbs0 ++ [(b.id, x.2)]).map (·.1) ++ rest.map (·.id)).Nodup := by
        intro x
        have : rbs0.map (·.1) ++ (b :: rest).map (·.id)
            = rbs0.map (·.1) ++ [b.id] ++ rest.map (·.id) := by simp
        rw [this] at hid
        simpa using hid
      cases hnt : b.next_target with
      | none =>
          have hlb : linkOf b = none := by simp [linkOf, hnt]
          have htg2 : ((rbt0.map (·.1)) ++ rest.filterMap linkOf).Nodup := by
            simpa [List.filterMap_cons, hlb] using htg
          have := ih (rbs0 ++ [(b.id, [b])]) rbt0 (by simpa using hid2 ⟨b.id, [b]⟩) htg2
            (fun x hx => hsh x (List.mem_cons_of_mem _ hx))
          rw [show buildRuns (b :: rest) rbs0 rbt0
              = buildRuns rest (rbs0 ++ [(b.id, [b])]) rbt0 from by
            simp only [buildRuns, hgetb, Bool.false_eq_true, ite_false,
              if_neg, hnt]]
          rw [this]
          simp [List.filterMap_cons, hlb]
      | some nt =>
          obtain ⟨t, rfl⟩ := hsh b (List.mem_cons_self _ _) nt hnt
          have hlb : linkOf b = some t := by simp [linkOf, hnt]
          have htmem : t ∉ rbt0.map (·.1) := by
            rw [List.nodup_append] at htg
            intro hmem
            refine htg.2.2 hmem ?_
            simp [List.filterMap_cons, hlb]
          have hgett : (alGet rbt0 t).isSome = false := by
            cases hx : alGet rbt0 t with
            | none => rfl
            | some v => exact absurd (alGet_isSome_iff.mp (by rw [hx]; rfl)) htmem
          have htg2 : ((rbt0 ++ [(t, b.id)]).map (·.1)
              ++ rest.filterMap linkOf).Nodup := by
            have : rbt0.map (·.1) ++ (b :: rest).filterMap linkOf
                = rbt0.map (·.1) ++ [t] ++ rest.filterMap linkOf := by
              simp [List.filterMap_cons, hlb]
            rw [this] at htg
            simpa using htg
          have := ih (rbs0 ++ [(b.id, [b])]) (rbt0 ++ [(t, b.id)])
            (by simpa using hid2 ⟨b.id, [b]⟩) htg2
            (fun x hx => hsh x (List.mem_cons_of_mem _ hx))
          rw [show buildRuns (b :: rest) rbs0 rbt0
              = buildRuns rest (rbs0 ++ [(b.id, [b])]) (rbt0 ++ [(t, b.id)])
              from by
            simp only [buildRuns, hgetb, Bool.false_eq_true, ite_false,
              if_neg, hnt, hgett, ite_true, if_pos]
            simp]
          rw [this]
          simp [List.filterMap_cons, hlb]

/-- Phase 3 characterization: `collectRuns` drains the run map in strictly
ascending key order. -/
theorem collectRuns_sorted :
    ∀ (n : Nat) (rbs : List (Int × List BasicBlock)) (acc : List BasicBlock),
    rbs.length = n → (rbs.map (·.1)).Nodup →
    ∃ ks, ks.Perm (rbs.map (·.1)) ∧ List.Sorted (· < ·) ks ∧
      collectRuns n rbs acc
        = .ok (acc ++ ks.flatMap (fun k => (alGet rbs k).getD [])) := by
  intro n
  induction n with
  | zero =>
      intro rbs acc hlen hnd
      have hnil : rbs = [] := List.eq_nil_of_length_eq_zero hlen
      subst hnil
      exact ⟨[], by simp, by simp, by simp [collectRuns]⟩
  | succ n ihn =>
      intro rbs acc hlen hnd
      cases rbs with
      | nil => simp at hlen
      | cons p rest =>
          have hne : (p :: rest) ≠ [] := by simp
          obtain ⟨m, hm⟩ :=
            Option.isSome_iff_exists.mp (alMinKey_isSome hne)
          obtain ⟨hmmem, hmle⟩ := alMinKey_spec hm
          obtain ⟨run, hrun⟩ :=
            Option.isSome_iff_exists.mp (alGet_isSome_iff.mpr hmmem)
          have hlen2 : (alRemove (p :: rest) m).length = n := by
            have h1 := alRemove_length_mem hmmem
            omega
          have hnd2 : ((alRemove (p :: rest) m).map (·.1)).Nodup := by
            rw [alRemove_keys hnd]
            exact hnd.erase m
          obtain ⟨ks, hksperm, hkssort, hkseq⟩ :=
            ihn (alRemove (p :: rest) m) (acc ++ run) hlen2 hnd2
          have hksperm2 : ks.Perm (((p :: rest).map (·.1)).erase m) := by
            rw [← alRemove_keys hnd]
            exact hksperm
          have hksne : ∀ k ∈ ks, k ≠ m := by
            intro k hk
            have hkmem := hksperm2.mem_iff.mp hk
            exact ((hnd.mem_erase_iff).mp hkmem).1
          refine ⟨m :: ks, ?_, ?_, ?_⟩
          · exact (hksperm2.cons m).trans (List.perm_cons_erase hmmem).symm
          · rw [List.sorted_cons]
            refine ⟨?_, hkssort⟩
            intro b hb
            have hbmem := hksperm2.mem_iff.mp hb
            have hble := hmle b (List.mem_of_mem_erase hbmem)
            exact lt_of_le_of_ne hble (Ne.symm (hksne b hb))
          · rw [show collectRuns (n + 1) (p :: rest) acc
                = collectRuns n (alRemove (p :: rest) m) (acc ++ run) from by
              simp only [collectRuns, hm, hrun]]
            rw [hkseq]
            simp only [List.flatMap_cons, hrun, Option.getD_some]
            rw [List.append_assoc]
            have hcongr : ks.flatMap
                (fun k => (alGet (alRemove (p :: rest) m) k).getD [])
                = ks.flatMap (fun k => (alGet (p :: rest) k).getD []) := by
              refine flatMap_congr_mem ?_
              intro k hk
              rw [alRemove_get_other (hksne k hk)]
            rw [hcongr]

/-- A maximal run fragment is exactly the specification's `blockChain` of its
head. -/
theorem seg_eq_blockChain {blocks : List (Int × BasicBlock)} :
    ∀ (seg : List BasicBlock) (h : Int), IsSeg blocks h seg →
    seg.getLast?.bind linkOf = none →
    ∀ fuel, seg.length ≤ fuel → blockChain blocks fuel h = seg := by
  intro seg
  induction seg with
  | nil => intro h hseg _ _ _; exact absurd rfl hseg.nonempty
  | cons a rest ih =>
      intro h hseg hmax fuel hfuel
      have hh : a.id = h := by simpa using hseg.headId
      have ha : alGet blocks h = some a := by
        rw [← hh]
        exact hseg.inDict a (List.mem_cons_self _ _)
      cases fuel with
      | zero => simp at hfuel
      | succ fuel =>
          simp only [blockChain, ha]
          cases rest with
          | nil =>
              have hla : linkOf a = none := by
                simpa using hmax
              simp [hla]
          | cons c rest2 =>
              have hchain := hseg.chain
              rw [List.chain'_cons] at hchain
              have hla : linkOf a = some c.id := hchain.1
              simp only [hla]
              have hseg2 : IsSeg blocks c.id (c :: rest2) :=
                { nonempty := by simp
                  headId := by simp
                  inDict := fun x hx =>
                    hseg.inDict x (List.mem_cons_of_mem _ hx)
                  chain := hchain.2 }
              have hmax2 : (c :: rest2).getLast?.bind linkOf = none := by
                rw [← List.getLast?_cons_cons (a := a)]
                exact hmax
              have hfuel2 : (c :: rest2).length ≤ fuel := by
                simp only [List.length_cons] at hfuel ⊢
                omega
              rw [ih c.id hseg2 hmax2 fuel hfuel2]

theorem mem_headsOf {blocks : List (Int × BasicBlock)} {k : Int} :
    k ∈ headsOf blocks
      ↔ k ∈ blocks.map (·.1) ∧ k ∉ targetsOf blocks := by
  constructor
  · intro h
    obtain ⟨p, hp, hpk⟩ := List.mem_filterMap.mp h
    by_cases ht : p.1 ∈ targetsOf blocks
    · simp [ht] at hpk
    · simp only [ht, ite_false, if_neg, Bool.false_eq_true,
        Option.some.injEq] at hpk
      subst hpk
      exact ⟨List.mem_map.mpr ⟨p, hp, rfl⟩, ht⟩
  · intro ⟨hmem, hnt⟩
    obtain ⟨p, hp, hpk⟩ := List.mem_map.mp hmem
    refine List.mem_filterMap.mpr ⟨p, hp, ?_⟩
    rw [hpk]
    simp [hnt]

/-- After the splice loop finishes, the heads of the remaining runs are
exactly the graph's run heads (the ids no block falls through to). -/
theorem final_keys_heads {blocks : List (Int × BasicBlock)}
    {final : List (Int × List BasicBlock)}
    (hkeysId : ∀ p ∈ blocks, p.2.id = p.1)
    (hkeysNodup : (blocks.map (·.1)).Nodup)
    (hfinal : SpliceInv blocks [] final) :
    ∀ k, k ∈ final.map (·.1) ↔ k ∈ headsOf blocks := by
  have hvalsIds : (blocks.map (·.2)).map (·.id) = blocks.map (·.1) := by
    rw [List.map_map]
    exact List.map_congr_left hkeysId
  have hflatIds : ((final.flatMap (·.2)).map (·.id)).Perm
      (blocks.map (·.1)) := by
    rw [← hvalsIds]
    exact hfinal.perm.map _
  have hflatNodup : (final.flatMap (fun p => p.2.map (·.id))).Nodup := by
    rw [← List.map_flatMap]
    exact hflatIds.nodup_iff.mpr hkeysNodup
  rw [List.nodup_flatMap] at hflatNodup
  have hmaximal : ∀ p ∈ final, p.2.getLast?.bind linkOf = none := by
    intro p hp
    cases hl : p.2.getLast?.bind linkOf with
    | none => rfl
    | some t =>
        have := hfinal.rbtComplete p hp t hl
        simp [alGet] at this
  intro k
  constructor
  · -- a final head is nobody's fallthrough target
    intro hk
    obtain ⟨pk, hpk, hpkk⟩ := List.mem_map.mp hk
    have hsegk := hfinal.segs pk hpk
    refine mem_headsOf.mpr ⟨?_, ?_⟩
    · -- the head block of pk's run is in the dict with id k
      cases hhead : pk.2.head? with
      | none =>
          have := hsegk.headId
          rw [hhead] at this
          simp at this
      | some b =>
          have hbid : b.id = pk.1 := by
            have := hsegk.headId
            rw [hhead] at this
            simpa using this
          have hbm : b ∈ pk.2 := List.mem_of_mem_head? hhead
          have := alGet_mem (hsegk.inDict b hbm)
          rw [← hpkk, ← hbid]
          exact List.mem_map.mpr ⟨(b.id, b), this, rfl⟩
    · -- if some block linked to k, k would occur twice in the run ids
      intro htgt
      obtain ⟨pb, hpb, hlink⟩ := List.mem_filterMap.mp htgt
      have hbflat : pb.2 ∈ final.flatMap (fun p => p.2) := by
        refine hfinal.perm.mem_iff.mpr ?_
        exact List.mem_map.mpr ⟨pb, hpb, rfl⟩
      obtain ⟨p2, hp2, hbin⟩ := List.mem_flatMap.mp hbflat
      have hseg2 := hfinal.segs p2 hp2
      by_cases hlast : p2.2.getLast? = some pb.2
      · have hmax := hmaximal p2 hp2
        rw [hlast] at hmax
        simp only [Option.some_bind] at hmax
        rw [hlink] at hmax
        cases hmax
      · obtain ⟨c, hcm, hrc⟩ :=
          chain'_mem_not_last_succ hseg2.chain hbin hlast
        rw [hlink] at hrc
        have hcid : c.id = k := by
          cases hrc
          rfl
        -- k occurs in p2's run tail and heads pk's run
        obtain ⟨bk, hbkhead, hbkid⟩ : ∃ bk, pk.2.head? = some bk
            ∧ bk.id = k := by
          cases hhead : pk.2.head? with
          | none =>
              have := hsegk.headId
              rw [hhead] at this
              simp at this
          | some b =>
              refine ⟨b, rfl, ?_⟩
              have := hsegk.headId
              rw [hhead] at this
              rw [← hpkk]
              simpa using this
        by_cases hpe : p2 = pk
        · -- same run: its id list has k at the head and again in the tail
          subst hpe
          have hnodupids := hflatNodup.1 p2 hp2
          cases hl2 : p2.2 with
          | nil => rw [hl2] at hbkhead; simp at hbkhead
          | cons x xs =>
              rw [hl2] at hbkhead hcm
              simp only [List.head?_cons, Option.some.injEq] at hbkhead
              rw [hl2] at hnodupids
              simp only [List.map_cons, List.nodup_cons] at hnodupids
              simp only [List.tail_cons] at hcm
              refine hnodupids.1 ?_
              rw [hbkhead, hbkid, ← hcid]
              exact List.mem_map.mpr ⟨c, hcm, rfl⟩
        · -- different runs: their id lists are disjoint
          have hsym : Symmetric (List.Disjoint on
              (fun p : Int × List BasicBlock => p.2.map (·.id))) := by
            intro a b hab x hx1 hx2
            exact hab hx2 hx1
          have hdisj := List.Pairwise.forall hsym hflatNodup.2 hp2 hpk hpe
          have hk1 : k ∈ p2.2.map (·.id) := by
            refine List.mem_map.mpr ⟨c, List.mem_of_mem_tail hcm, hcid⟩
          have hk2 : k ∈ pk.2.map (·.id) := by
            refine List.mem_map.mpr
              ⟨bk, List.mem_of_mem_head? hbkhead, hbkid⟩
          exact hdisj hk1 hk2
  · -- an untargeted block heads its run
    intro hk
    obtain ⟨hkmem, hknt⟩ := mem_headsOf.mp hk
    obtain ⟨pb, hpb, hpbk⟩ := List.mem_map.mp hkmem
    have hbk : pb.2.id = k := by rw [hkeysId pb hpb, hpbk]
    have hbflat : pb.2 ∈ final.flatMap (fun p => p.2) := by
      refine hfinal.perm.mem_iff.mpr ?_
      exact List.mem_map.mpr ⟨pb, hpb, rfl⟩
    obtain ⟨p2, hp2, hbin⟩ := List.mem_flatMap.mp hbflat
    have hseg2 := hfinal.segs p2 hp2
    by_cases hhead : p2.2.head? = some pb.2
    · -- pb.2 heads p2's run, so p2's key is k
      have : pb.2.id = p2.1 := by
        have := hseg2.headId
        rw [hhead] at this
        simpa using this
      rw [← hbk, this]
      exact List.mem_map.mpr ⟨p2, hp2, rfl⟩
    · -- otherwise pb.2 is in the tail, so its predecessor targets k
      have hbtail : pb.2 ∈ p2.2.tail := by
        cases hl2 : p2.2 with
        | nil => rw [hl2] at hbin; simp at hbin
        | cons x xs =>
            rw [hl2] at hbin hhead
            rcases List.mem_cons.mp hbin with he | he
            · exact absurd (by rw [he] ; rfl) hhead
            · simpa using he
      obtain ⟨a, ham, hra⟩ := chain'_mem_tail_pred hseg2.chain hbtail
      have hamem : (a.id, a) ∈ blocks := alGet_mem (hseg2.inDict a ham)
      refine absurd ?_ hknt
      refine List.mem_filterMap.mpr ⟨(a.id, a), hamem, ?_⟩
      rw [hra, hbk]


theorem headsOf_nodup {blocks : List (Int × BasicBlock)}
    (h : (blocks.map (·.1)).Nodup) : (headsOf blocks).Nodup := by
  have hsub : ∀ (l : List (Int × BasicBlock)) (T : List Int),
      (l.filterMap (fun p => if p.1 ∈ T then none else some p.1)).Sublist
        (l.map (·.1)) := by
    intro l T
    induction l with
    | nil => simp
    | cons p rest ih =>
        simp only [List.filterMap_cons, List.map_cons]
        by_cases hm : p.1 ∈ T
        · rw [if_pos hm]
          exact ih.cons _
        · rw [if_neg hm]
          exact ih.cons₂ _
  exact (hsub blocks (targetsOf blocks)).nodup h

/-- The finished splice state has only maximal runs: had a run still ended in
a fallthrough, `rbtComplete` would find its target in the now-empty
`runs_by_target`. -/
theorem spliceFinal_maximal {blocks : List (Int × BasicBlock)}
    {final : List (Int × List BasicBlock)}
    (hfinal : SpliceInv blocks [] final) :
    ∀ p ∈ final, p.2.getLast?.bind linkOf = none := by
  intro p hp
  cases hl : p.2.getLast?.bind linkOf with
  | none => rfl
  | some t =>
      have := hfinal.rbtComplete p hp t hl
      simp [alGet] at this

/-- Every run held by the finished splice state is the `blockChain` of its
key: it is a maximal fallthrough chain headed by the key's block. -/
theorem final_run_eq_blockChain {blocks : List (Int × BasicBlock)}
    {final : List (Int × List BasicBlock)}
    (hfinal : SpliceInv blocks [] final)
    {k : Int} {seg : List BasicBlock} (hget : alGet final k = some seg) :
    blockChain blocks blocks.length k = seg := by
  have hp : (k, seg) ∈ final := alGet_mem hget
  have hseg : IsSeg blocks k seg := hfinal.segs _ hp
  have hmax : seg.getLast?.bind linkOf = none := spliceFinal_maximal hfinal _ hp
  have hlen : seg.length ≤ blocks.length := by
    have h1 : seg.length ≤ (final.flatMap (·.2)).length :=
      length_le_flatMap (f := (·.2)) hp
    have h2 : (final.flatMap (·.2)).length = (blocks.map (·.2)).length :=
      hfinal.perm.length_eq
    rw [h2, List.length_map] at h1
    exact h1
  exact seg_eq_blockChain seg k hseg hmax blocks.length hlen

/-- Phase 1's output satisfies the splice invariant: every block is its own
singleton run, and `runs_by_target` holds one entry per fallthrough link. -/
theorem initial_spliceInv {blocks : List (Int × BasicBlock)}
    (hkeysId : ∀ p ∈ blocks, p.2.id = p.1)
    (hkeysNodup : (blocks.map (·.1)).Nodup)
    (htargetsNodup : (targetsOf blocks).Nodup)
    (hresolve : ∀ t ∈ targetsOf blocks, t ∈ blocks.map (·.1)) :
    SpliceInv blocks
      ((blocks.map (·.2)).filterMap
        (fun b => (linkOf b).map (fun t => (t, b.id))))
      ((blocks.map (·.2)).map (fun b => (b.id, [b]))) := by
  have hvalsIds : ((blocks.map (·.2)).map (·.id)) = blocks.map (·.1) := by
    rw [List.map_map]
    exact List.map_congr_left hkeysId
  have hdict : ∀ b ∈ blocks.map (·.2), alGet blocks b.id = some b := by
    intro b hb
    obtain ⟨p, hp, rfl⟩ := List.mem_map.mp hb
    rw [hkeysId p hp]
    exact mem_alGet hkeysNodup hp
  have hrbs0keys : (((blocks.map (·.2)).map (fun b => (b.id, [b]))).map (·.1))
      = blocks.map (·.1) := by
    rw [List.map_map]
    have he : ((·.1) ∘ fun b : BasicBlock => (b.id, [b]))
        = (fun b : BasicBlock => b.id) := rfl
    rw [he]
    exact hvalsIds
  have hrbt0keys : (((blocks.map (·.2)).filterMap
      (fun b => (linkOf b).map (fun t => (t, b.id)))).map (·.1))
      = targetsOf blocks := by
    rw [List.map_filterMap]
    have he : (fun b : BasicBlock =>
        ((linkOf b).map (fun t => (t, b.id))).map (·.1))
        = fun b => linkOf b := by
      funext b
      cases linkOf b <;> rfl
    rw [he, List.filterMap_map]
    rfl
  refine { segs := ?_, perm := ?_, keysNodup := ?_, rbtNodup := ?_,
           rbtSound := ?_, rbtComplete := ?_, rbtKeyHead := ?_ }
  · intro p hp
    obtain ⟨b, hb, rfl⟩ := List.mem_map.mp hp
    exact
      { nonempty := by simp
        headId := by simp
        inDict := by
          intro x hx
          simp only [List.mem_singleton] at hx
          rw [hx]
          exact hdict b hb
        chain := by simp }
  · have he : (((blocks.map (·.2)).map (fun b => (b.id, [b]))).flatMap (·.2))
        = blocks.map (·.2) := by
      rw [List.flatMap_map]
      simp
    rw [he]
  · rw [hrbs0keys]
    exact hkeysNodup
  · rw [hrbt0keys]
    exact htargetsNodup
  · intro q hq
    obtain ⟨b, hb, hqe⟩ := List.mem_filterMap.mp hq
    cases hl : linkOf b with
    | none => rw [hl] at hqe; cases hqe
    | some t =>
        rw [hl] at hqe
        simp only [Option.map_some', Option.some.injEq] at hqe
        cases hqe
        refine ⟨[b], ?_, ?_⟩
        · apply mem_alGet
          · rw [hrbs0keys]
            exact hkeysNodup
          · exact List.mem_map.mpr ⟨b, hb, rfl⟩
        · simp [hl]
  · intro p hp t hlast
    obtain ⟨b, hb, rfl⟩ := List.mem_map.mp hp
    simp only [List.getLast?_singleton, Option.some_bind] at hlast
    apply mem_alGet
    · rw [hrbt0keys]
      exact htargetsNodup
    · refine List.mem_filterMap.mpr ⟨b, hb, ?_⟩
      rw [hlast]
      rfl
  · intro q hq
    obtain ⟨b, hb, hqe⟩ := List.mem_filterMap.mp hq
    cases hl : linkOf b with
    | none => rw [hl] at hqe; cases hqe
    | some t =>
        rw [hl] at hqe
        simp only [Option.map_some', Option.some.injEq] at hqe
        cases hqe
        rw [alGet_isSome_iff, hrbs0keys]
        apply hresolve
        obtain ⟨p, hp, rfl⟩ := List.mem_map.mp hb
        exact List.mem_filterMap.mpr ⟨p, hp, hl⟩

end SpliceLemmas

/-- C7: For every `FunctionBlock` whose blocks satisfy the fallthrough
invariants (keys are the block ids and are unique, fallthrough labels are
well-shaped zero-offset `LabelValue`s whose targets are unique and resolve to
existing blocks, fallthrough links admit a rank certificate excluding cycles,
and the entry block heads a run), `as_basic_blocks` returns every basic block
exactly once, in this order: first the spliced run containing the entry
block, then the remaining disconnected runs in ascending-id order.  Runs are
the maximal fallthrough chains (`blockChain`) of the graph's run heads
(`headsOf`: the ids no block falls through to). -/
theorem as_basic_blocks_entry_run_then_sorted_runs
    (fb : FunctionBlock) (rank : Int → Nat)
    (hkeysId : ∀ p ∈ fb.blocks, p.2.id = p.1)
    (hkeysNodup : (fb.blocks.map (·.1)).Nodup)
    (hshape : ∀ p ∈ fb.blocks,
      p.2.next_target = (linkOf p.2).map (fun t => PyVal.vlabel t 0))
    (htargetsNodup : (targetsOf fb.blocks).Nodup)
    (hresolve : ∀ t ∈ targetsOf fb.blocks, t ∈ fb.blocks.map (·.1))
    (hrank : ∀ p ∈ fb.blocks, ∀ t ∈ linkOf p.2, rank p.1 < rank t)
    (hentry : fb.entry ∈ headsOf fb.blocks) :
    ∃ others, List.Sorted (· < ·) others
      ∧ (fb.entry :: others).Perm (headsOf fb.blocks)
      ∧ fb.as_basic_blocks = .ok ((fb.entry :: others).flatMap
          (blockChain fb.blocks fb.blocks.length))
      ∧ ((fb.entry :: others).flatMap
          (blockChain fb.blocks fb.blocks.length)).Perm
          (fb.blocks.map (·.2)) := by
  have hshapeE : ∀ p ∈ fb.blocks, ∀ nt, p.2.next_target = some nt →
      ∃ t2, nt = PyVal.vlabel t2 0 := by
    intro p hp nt hnt
    have hx := hshape p hp
    rw [hnt] at hx
    cases hl : linkOf p.2 with
    | none => rw [hl] at hx; cases hx
    | some t =>
        rw [hl] at hx
        simp only [Option.map_some', Option.some.injEq] at hx
        exact ⟨t, hx⟩
  have hrank2 : ∀ p ∈ fb.blocks, ∀ t, linkOf p.2 = some t →
      rank p.1 < rank t := by
    intro p hp t ht
    exact hrank p hp t (by rw [ht]; rfl)
  have hvalsIds : ((fb.blocks.map (·.2)).map (·.id)) = fb.blocks.map (·.1) := by
    rw [List.map_map]
    exact List.map_congr_left hkeysId
  have htargets_eq : (fb.blocks.map (·.2)).filterMap linkOf
      = targetsOf fb.blocks := by
    rw [List.filterMap_map]
    rfl
  have hshapeB : ∀ b ∈ fb.blocks.map (·.2), ∀ nt, b.next_target = some nt →
      ∃ t, nt = PyVal.vlabel t 0 := by
    intro b hb nt hnt
    obtain ⟨p, hp, rfl⟩ := List.mem_map.mp hb
    exact hshapeE p hp nt hnt
  have hbuild := buildRuns_eq (fb.blocks.map (·.2)) [] []
    (by simpa [hvalsIds] using hkeysNodup)
    (by simpa [htargets_eq] using htargetsNodup)
    hshapeB
  simp only [List.nil_append] at hbuild
  have hinv0 := initial_spliceInv hkeysId hkeysNodup htargetsNodup hresolve
  obtain ⟨final, hsplice, hfinalInv⟩ := spliceLoop_ok hshapeE hrank2
    (((fb.blocks.map (·.2)).filterMap
      (fun b => (linkOf b).map (fun t => (t, b.id)))).length)
    _ _ (le_refl _) hinv0
  have hkeysIff := final_keys_heads hkeysId hkeysNodup hfinalInv
  have hfinalKeysNodup := hfinalInv.keysNodup
  have hheadsNodup : (headsOf fb.blocks).Nodup := headsOf_nodup hkeysNodup
  have hkeysPerm : (final.map (·.1)).Perm (headsOf fb.blocks) :=
    (List.perm_ext_iff_of_nodup hfinalKeysNodup hheadsNodup).mpr hkeysIff
  have hentryMem : fb.entry ∈ final.map (·.1) := (hkeysIff fb.entry).mpr hentry
  obtain ⟨entryRun, hgetEntry⟩ :=
    Option.isSome_iff_exists.mp (alGet_isSome_iff.mpr hentryMem)
  have hrbs3keys : ((alRemove final fb.entry).map (·.1))
      = (final.map (·.1)).erase fb.entry := alRemove_keys hfinalKeysNodup
  have hrbs3Nodup : ((alRemove final fb.entry).map (·.1)).Nodup := by
    rw [hrbs3keys]
    exact hfinalKeysNodup.erase _
  obtain ⟨ks, hksperm, hkssort, hkseq⟩ := collectRuns_sorted
    (alRemove final fb.entry).length (alRemove final fb.entry) entryRun rfl
    hrbs3Nodup
  have hrun : fb.as_basic_blocks = .ok (entryRun ++ ks.flatMap
      (fun k => (alGet (alRemove final fb.entry) k).getD [])) := by
    simp only [FunctionBlock.as_basic_blocks, hbuild, Bind.bind, Except.bind,
      hsplice, hgetEntry, hkseq]
  have hentryChain : blockChain fb.blocks fb.blocks.length fb.entry
      = entryRun := final_run_eq_blockChain hfinalInv hgetEntry
  have hksChain : ∀ k ∈ ks,
      (alGet (alRemove final fb.entry) k).getD []
        = blockChain fb.blocks fb.blocks.length k := by
    intro k hk
    have hkmem : k ∈ (alRemove final fb.entry).map (·.1) :=
      hksperm.mem_iff.mp hk
    have hkne : k ≠ fb.entry := by
      rw [hrbs3keys] at hkmem
      exact (hfinalKeysNodup.mem_erase_iff.mp hkmem).1
    obtain ⟨seg, hseg⟩ := Option.isSome_iff_exists.mp
      (alGet_isSome_iff.mpr hkmem)
    rw [hseg, Option.getD_some]
    rw [alRemove_get_other hkne] at hseg
    exact (final_run_eq_blockChain hfinalInv hseg).symm
  have hout : entryRun ++ ks.flatMap
      (fun k => (alGet (alRemove final fb.entry) k).getD [])
      = (fb.entry :: ks).flatMap (blockChain fb.blocks fb.blocks.length) := by
    rw [List.flatMap_cons, hentryChain]
    congr 1
    exact flatMap_congr_mem hksChain
  have h0 : ks.Perm ((final.map (·.1)).erase fb.entry) := by
    rw [← hrbs3keys]
    exact hksperm
  have hpermHeads : (fb.entry :: ks).Perm (headsOf fb.blocks) := by
    have h1 := h0.cons fb.entry
    have h2 : (fb.entry :: (final.map (·.1)).erase fb.entry).Perm
        (final.map (·.1)) := (List.perm_cons_erase hentryMem).symm
    exact (h1.trans h2).trans hkeysPerm
  have hpermAll : ((fb.entry :: ks).flatMap
      (blockChain fb.blocks fb.blocks.length)).Perm (fb.blocks.map (·.2)) := by
    rw [← hout]
    have hksFlat : (ks.flatMap
        (fun k => (alGet (alRemove final fb.entry) k).getD [])).Perm
        ((alRemove final fb.entry).flatMap (·.2)) := by
      have hp := List.Perm.flatMap_right
        (fun k => (alGet (alRemove final fb.entry) k).getD []) hksperm
      rw [keys_flatMap_lookup _ hrbs3Nodup] at hp
      exact hp
    have hfinalPerm : final.Perm
        ((fb.entry, entryRun) :: alRemove final fb.entry) :=
      alRemove_perm hfinalKeysNodup hgetEntry
    have hflat2 : (final.flatMap (·.2)).Perm
        (entryRun ++ (alRemove final fb.entry).flatMap (·.2)) := by
      have hq := List.Perm.flatMap_right (·.2) hfinalPerm
      simpa [List.flatMap_cons] using hq
    exact ((hksFlat.append_left entryRun).trans hflat2.symm).trans
      hfinalInv.perm
  refine ⟨ks, hkssort, hpermHeads, ?_, hpermAll⟩
  rw [hrun, hout]


/-- The flat tuples `dis.get_instructions` (CPython 3.10) yields for a code
object whose `co_code` is `[144,1, 92,44, 110,0, 83,0]`, i.e.

    0 EXTENDED_ARG     1
    2 UNPACK_SEQUENCE  300   (= 44 | 1 << 8)
    4 JUMP_FORWARD     0     (argval 6: the byte offset of the target)
    6 RETURN_VALUE           (is_jump_target)

`dis` yields the `EXTENDED_ARG` unit as its own tuple and folds the extended
argument into the following instruction's `argval`. -/
def c2Tuples : List DisRaw :=
  [⟨144, .vint 1, 0, some 1, false⟩,
   ⟨92, .vint 300, 2, none, false⟩,
   ⟨110, .vint 6, 4, none, false⟩,
   ⟨83, .vnone, 6, none, true⟩]

/-- C2: the identity round-trip fails on a code unit the disassembler
accepts.  Disassembling the code object above and reassembling without any
mutation yields `[144,1, 144,1, 92,44, 110,1, 83,0]` — not the original
`[144,1, 92,44, 110,0, 83,0]`.  Two slips compound: the `EXTENDED_ARG` tuple
yielded by `dis` is kept as an ordinary instruction and re-emitted although
`get_raw` regenerates the prefix from the folded argument (duplicating it),
and the relative-jump operand is computed as `j - o - 1` with `o` the
enumeration index of the jump but `j` the target's raw-unit offset
(basic_assembler.py:64,301), which drifts once any earlier instruction needs
a prefix (here: 1 instead of 0).  The spec's testable property says the
round-trip must be byte-identical, so the code, not the claim, is wrong. -/
theorem roundtrip_not_byte_identical :
    (disassemble cpython310 emptyCodeInfo c2Tuples).bind
        (FunctionBlock.assemble 6 cpython310)
      = .ok [144, 1, 144, 1, 92, 44, 110, 1, 83, 0]
    ∧ ([144, 1, 144, 1, 92, 44, 110, 1, 83, 0] : List Nat)
        ≠ [144, 1, 92, 44, 110, 0, 83, 0] :=
  ⟨rfl, by decide⟩

/-- Witness for `get_raw_rejects_nonforward_relative_jump`: a CPython 3.10
`JUMP_FORWARD` (opcode 110, relative) at instruction index 5 whose resolved
target is 3 fails the assertion. -/
theorem get_raw_rejects_nonforward_relative_jump_witness :
    Instruction.get_raw ⟨110, .vlabel 7 0⟩ cpython310 emptyCodeInfo 5 (some 3)
      = .error .assertionError :=
  get_raw_rejects_nonforward_relative_jump cpython310 ⟨110, .vlabel 7 0⟩
    emptyCodeInfo 5 3 (by decide) (by decide) (by decide) (by decide)
    (by decide) (by decide) (by decide) rfl (by decide)

/-- A small well-formed graph: entry block 0 falls through to block 2, block
5 is a disconnected run.  Run heads: 0 and 5. -/
def c7wFB : FunctionBlock :=
  { code_info := emptyCodeInfo
    id := 0
    entry := 0
    blocks :=
      [ (0, { id := 0, instructions := [], jump_instruction := none,
              next_target := some (.vlabel 2 0), line := none }),
        (2, { id := 2, instructions := [], jump_instruction := none,
              next_target := none, line := none }),
        (5, { id := 5, instructions := [], jump_instruction := none,
              next_target := none, line := none }) ] }

/-- Witness for `as_basic_blocks_entry_run_then_sorted_runs` on the concrete
graph `c7wFB`, with block ids themselves as the rank certificate. -/
theorem as_basic_blocks_entry_run_then_sorted_runs_witness :
    ∃ others, List.Sorted (· < ·) others
      ∧ ((0 : Int) :: others).Perm (headsOf c7wFB.blocks)
      ∧ c7wFB.as_basic_blocks = .ok (((0 : Int) :: others).flatMap
          (blockChain c7wFB.blocks c7wFB.blocks.length))
      ∧ (((0 : Int) :: others).flatMap
          (blockChain c7wFB.blocks c7wFB.blocks.length)).Perm
          (c7wFB.blocks.map (·.2)) :=
  as_basic_blocks_entry_run_then_sorted_runs c7wFB Int.toNat
    (by decide) (by decide) (by decide) (by decide) (by decide)
    (by decide) (by decide)

section AssembleTermination

/-- Pointwise order on target maps: same keys in the same order, each value
no smaller on the right.  "Offsets only move forward" is `tle` between
successive passes. -/
def tle (t t' : List (Int × Int)) : Prop :=
  List.Forall₂ (fun p q => p.1 = q.1 ∧ p.2 ≤ q.2) t t'

/-- Remaining headroom of a target map below the bound `B`; it strictly
shrinks whenever a pass moves any offset forward. -/
def tmeasure (B : Int) (t : List (Int × Int)) : Nat :=
  (t.map (fun p => (B - p.2).toNat)).sum

theorem tle_refl (t : List (Int × Int)) : tle t t :=
  List.forall₂_same.mpr (fun _ _ => ⟨rfl, le_refl _⟩)

theorem tle_trans {a b c : List (Int × Int)} (hab : tle a b) (hbc : tle b c) :
    tle a c := by
  induction hab generalizing c with
  | nil => cases hbc; exact List.Forall₂.nil
  | cons hpq _ ih =>
      cases hbc with
      | cons hqr hrest =>
          exact List.Forall₂.cons
            ⟨hpq.1.trans hqr.1, hpq.2.trans hqr.2⟩ (ih hrest)

theorem tle_keys {t t' : List (Int × Int)} (h : tle t t') :
    t.map (·.1) = t'.map (·.1) := by
  induction h with
  | nil => rfl
  | cons hpq _ ih => simp [hpq.1, ih]

theorem tle_alGet : ∀ {t t' : List (Int × Int)}, tle t t' → ∀ {k v : Int},
    alGet t k = some v → ∃ v', alGet t' k = some v' ∧ v ≤ v' := by
  intro t
  induction t with
  | nil =>
      intro t' h k v hget
      simp [alGet] at hget
  | cons p rest ih =>
      intro t' h k v hget
      cases h with
      | cons hpq hrest =>
          rename_i q l2
          obtain ⟨k0, v0⟩ := p
          obtain ⟨k1, v1⟩ := q
          obtain ⟨hk, hv⟩ := hpq
          simp only at hk hv
          subst hk
          by_cases he : k0 = k
          · subst he
            simp only [alGet, if_pos rfl] at hget ⊢
            cases hget
            exact ⟨v1, rfl, hv⟩
          · simp only [alGet, he, ite_false, if_neg,
              Bool.false_eq_true] at hget ⊢
            exact ih hrest hget

theorem tle_alSet : ∀ {t t' : List (Int × Int)}, tle t t' → ∀ {k v v' : Int},
    v ≤ v' → tle (alSet t k v) (alSet t' k v') := by
  intro t
  induction t with
  | nil =>
      intro t' h k v v' hv
      cases h
      exact List.Forall₂.cons ⟨rfl, hv⟩ List.Forall₂.nil
  | cons p rest ih =>
      intro t' h k v v' hv
      cases h with
      | cons hpq hrest =>
          rename_i q l2
          obtain ⟨k0, v0⟩ := p
          obtain ⟨k1, v1⟩ := q
          obtain ⟨hk, hvv⟩ := hpq
          simp only at hk hvv
          subst hk
          by_cases he : k0 = k
          · subst he
            simp only [alSet, if_pos rfl]
            exact List.Forall₂.cons ⟨rfl, hv⟩ hrest
          · simp only [alSet, he, ite_false, if_neg, Bool.false_eq_true]
            exact List.Forall₂.cons ⟨rfl, hvv⟩ (ih hrest hv)

/-- The left-hand map stays below an updated right-hand map as long as the
new value dominates the left-hand entry at that key. -/
theorem tle_alSet_right : ∀ {t0 t : List (Int × Int)}, tle t0 t →
    ∀ {k w v : Int}, alGet t0 k = some w → w ≤ v → tle t0 (alSet t k v) := by
  intro t0
  induction t0 with
  | nil =>
      intro t h k w v hget _
      simp [alGet] at hget
  | cons p rest ih =>
      intro t h k w v hget hle
      cases h with
      | cons hpq hrest =>
          rename_i q l2
          obtain ⟨k0, v0⟩ := p
          obtain ⟨k1, v1⟩ := q
          obtain ⟨hk, hvv⟩ := hpq
          simp only at hk hvv
          subst hk
          by_cases he : k0 = k
          · subst he
            simp only [alGet, if_pos rfl] at hget
            cases hget
            simp only [alSet, if_pos rfl]
            exact List.Forall₂.cons ⟨rfl, hle⟩ hrest
          · simp only [alGet, he, ite_false, if_neg,
              Bool.false_eq_true] at hget
            simp only [alSet, he, ite_false, if_neg, Bool.false_eq_true]
            exact List.Forall₂.cons ⟨rfl, hvv⟩ (ih hrest hget hle)

theorem bound_alSet {B v : Int} {t : List (Int × Int)}
    (hb : ∀ p ∈ t, p.2 ≤ B) (hv : v ≤ B) {k : Int} :
    ∀ p ∈ alSet t k v, p.2 ≤ B := by
  induction t with
  | nil =>
      intro p hp
      simp only [alSet, List.mem_singleton] at hp
      subst hp
      exact hv
  | cons q rest ih =>
      obtain ⟨k0, v0⟩ := q
      intro p hp
      by_cases he : k0 = k
      · subst he
        simp only [alSet, if_pos rfl] at hp
        rcases List.mem_cons.mp hp with rfl | hp
        · exact hv
        · exact hb p (List.mem_cons_of_mem _ hp)
      · simp only [alSet, he, ite_false, if_neg, Bool.false_eq_true] at hp
        rcases List.mem_cons.mp hp with rfl | hp
        · exact hb _ (List.mem_cons_self _ _)
        · exact ih (fun x hx => hb x (List.mem_cons_of_mem _ hx)) p hp

theorem tmeasure_le {B : Int} : ∀ {t t' : List (Int × Int)}, tle t t' →
    tmeasure B t' ≤ tmeasure B t := by
  intro t
  induction t with
  | nil =>
      intro t' h
      cases h
      exact le_refl _
  | cons p rest ih =>
      intro t' h
      cases h with
      | cons hpq hrest =>
          rename_i q l2
          simp only [tmeasure, List.map_cons, List.sum_cons]
          have h1 : (B - q.2).toNat ≤ (B - p.2).toNat := by
            have := hpq.2
            omega
          have h2 := ih hrest
          simp only [tmeasure] at h2
          omega

theorem tmeasure_lt {B : Int} : ∀ {t t' : List (Int × Int)}, tle t t' →
    t ≠ t' → (∀ p ∈ t', p.2 ≤ B) → tmeasure B t' < tmeasure B t := by
  intro t
  induction t with
  | nil =>
      intro t' h hne _
      cases h
      exact absurd rfl hne
  | cons p rest ih =>
      intro t' h hne hb
      cases h with
      | cons hpq hrest =>
          rename_i q l2
          simp only [tmeasure, List.map_cons, List.sum_cons]
          by_cases hpe : p = q
          · subst hpe
            have hne2 : rest ≠ l2 := by
              intro he
              exact hne (by rw [he])
            have h2 := ih hrest hne2
              (fun x hx => hb x (List.mem_cons_of_mem _ hx))
            simp only [tmeasure] at h2
            omega
          · have hvlt : p.2 < q.2 := by
              rcases lt_or_eq_of_le hpq.2 with h | h
              · exact h
              · exact absurd (Prod.ext hpq.1 h) hpe
            have hq := hb q (List.mem_cons_self _ _)
            have htail := tmeasure_le (B := B) hrest
            simp only [tmeasure] at htail
            omega

theorem chunkBytesF_congr :
    ∀ (f g n : Nat), n ≤ f → n ≤ g → chunkBytesF f n = chunkBytesF g n := by
  intro f
  induction f with
  | zero =>
      intro g n hf _
      have : n = 0 := Nat.le_zero.mp hf
      subst this
      cases g <;> simp [chunkBytesF]
  | succ f ih =>
      intro g n hf hg
      by_cases hn : n > 0xFF
      · have hg1 : 1 ≤ g := le_trans (by omega) hg
        obtain ⟨g', rfl⟩ := Nat.exists_eq_add_of_le hg1
        rw [Nat.add_comm 1 g']
        simp only [chunkBytesF, if_pos hn]
        have hlt : n / 256 < n := Nat.div_lt_self (by omega) (by omega)
        rw [ih g' (n / 256) (by omega) (by omega)]
      · cases g with
        | zero =>
            have : n = 0 := Nat.le_zero.mp hg
            subst this
            simp [chunkBytesF]
        | succ g' => simp [chunkBytesF, hn]

theorem chunkBytes_small {n : Nat} (h : n ≤ 0xFF) : chunkBytes n = [n] := by
  cases n with
  | zero => rfl
  | succ m =>
      show chunkBytesF (m + 1) (m + 1) = [m + 1]
      simp [chunkBytesF, Nat.not_lt.mpr h]

theorem chunkBytes_unfold {n : Nat} (h : n > 0xFF) :
    chunkBytes n = n % 256 :: chunkBytes (n / 256) := by
  obtain ⟨m, rfl⟩ : ∃ m, n = m + 1 := ⟨n - 1, by omega⟩
  show chunkBytesF (m + 1) (m + 1) = _
  simp only [chunkBytesF, if_pos h]
  congr 1
  exact chunkBytesF_congr m ((m + 1) / 256) ((m + 1) / 256)
    (by have := Nat.div_lt_self (show 0 < m + 1 by omega)
          (show 1 < 256 by omega)
        omega)
    (le_refl _)

theorem chunkBytes_len_pos (n : Nat) : 0 < (chunkBytes n).length := by
  by_cases h : n > 0xFF
  · rw [chunkBytes_unfold h]; simp
  · rw [chunkBytes_small (by omega)]; simp

theorem chunkBytes_len_mono :
    ∀ {m n : Nat}, m ≤ n → (chunkBytes m).length ≤ (chunkBytes n).length := by
  intro m n
  induction n using Nat.strong_induction_on generalizing m with
  | _ n ih =>
      intro hmn
      by_cases hm : m > 0xFF
      · have hn : n > 0xFF := by omega
        rw [chunkBytes_unfold hm, chunkBytes_unfold hn]
        simp only [List.length_cons]
        have hrec := ih (n / 256) (Nat.div_lt_self (by omega) (by omega))
          (Nat.div_le_div_right hmn)
        omega
      · rw [chunkBytes_small (by omega)]
        have := chunkBytes_len_pos n
        simp only [List.length_singleton]
        omega

theorem chunkBytes_len_le :
    ∀ (k : Nat) {n : Nat}, 1 ≤ k → n < 256 ^ k → (chunkBytes n).length ≤ k := by
  intro k
  induction k with
  | zero => intro n h; omega
  | succ k ih =>
      intro n _ hn
      by_cases hsmall : n ≤ 0xFF
      · rw [chunkBytes_small hsmall]
        simp
      · have hk1 : 1 ≤ k := by
          by_contra hk
          have : k = 0 := by omega
          subst this
          simp at hn
          omega
        rw [chunkBytes_unfold (by omega)]
        simp only [List.length_cons]
        have hdiv : n / 256 < 256 ^ k := by
          have : n < 256 * 256 ^ k := by
            calc n < 256 ^ (k + 1) := hn
            _ = 256 * 256 ^ k := by ring
          omega
        have := ih hk1 hdiv
        omega

end AssembleTermination

section AssembleTermination2

/-- `get_raw` on a relative jump whose label survives the `elif` chain:
the operand is `jv - o - 1` (basic_assembler.py:62-64). -/
theorem get_raw_jrel_ok {tbl : DisTables} {ci : CodeInfo} {i : Instruction}
    (h1 : ¬ i.opcode < tbl.HAVE_ARGUMENT)
    (h2 : i.opcode ∉ tbl.hasname) (h3 : i.opcode ∉ tbl.haslocal)
    (h4 : i.opcode ∉ tbl.hasconst) (h5 : i.opcode ∉ tbl.hascompare)
    (h6 : i.opcode ∉ tbl.hasfree) (hlab : i.arg.isLabel = true)
    (hjr : i.opcode ∈ tbl.hasjrel) (o jv : Int) (hnn : 0 ≤ jv - o - 1) :
    i.get_raw tbl ci o (some jv) = .ok
      (((chunkBytes (jv - o - 1).toNat).tail.reverse.map
          (fun v => ⟨tbl.EXTENDED_ARG, some v⟩))
        ++ [⟨i.opcode, some ((chunkBytes (jv - o - 1).toNat).headD 0)⟩]) := by
  have hnlt : ¬ jv - o - 1 < 0 := by omega
  simp [Instruction.get_raw, h1, h2, h3, h4, h5, h6, hlab, hjr, hnlt,
    Bind.bind, Except.bind, pure, Except.pure]

/-- `get_raw` on an absolute jump whose label survives the `elif` chain:
the operand is the resolved target `jv` itself (basic_assembler.py:65-67). -/
theorem get_raw_jabs_ok {tbl : DisTables} {ci : CodeInfo} {i : Instruction}
    (h1 : ¬ i.opcode < tbl.HAVE_ARGUMENT)
    (h2 : i.opcode ∉ tbl.hasname) (h3 : i.opcode ∉ tbl.haslocal)
    (h4 : i.opcode ∉ tbl.hasconst) (h5 : i.opcode ∉ tbl.hascompare)
    (h6 : i.opcode ∉ tbl.hasfree) (h7 : i.opcode ∉ tbl.hasjrel)
    (hlab : i.arg.isLabel = true)
    (hja : i.opcode ∈ tbl.hasjabs) (o jv : Int) (hnn : 0 ≤ jv) :
    i.get_raw tbl ci o (some jv) = .ok
      (((chunkBytes jv.toNat).tail.reverse.map
          (fun v => ⟨tbl.EXTENDED_ARG, some v⟩))
        ++ [⟨i.opcode, some ((chunkBytes jv.toNat).headD 0)⟩]) := by
  have hnlt : ¬ jv < 0 := by omega
  simp [Instruction.get_raw, h1, h2, h3, h4, h5, h6, h7, hlab, hja, hnlt,
    Bind.bind, Except.bind, pure, Except.pure]

/-- An encoded instruction takes exactly one unit per chunk of its operand:
the prefixes plus the opcode unit. -/
theorem enc_length (tbl : DisTables) (op : Nat) (m : Nat) :
    (((chunkBytes m).tail.reverse.map
        (fun v => (⟨tbl.EXTENDED_ARG, some v⟩ : RawIns)))
      ++ [(⟨op, some ((chunkBytes m).headD 0)⟩ : RawIns)]).length
      = (chunkBytes m).length := by
  have := chunkBytes_len_pos m
  simp [List.length_tail]
  omega

/-- The per-instruction conditions under which one pass of the layout loop
cannot fail: an index outside `jumps` encodes independently of the target
map into at most 8 units, and an index inside `jumps` holds a well-shaped
jump — a label arrive at the `hasjrel`/`hasjabs` branch of `get_raw`, the
relative kind strictly forward. -/
def GoodIns (tbl : DisTables) (ci : CodeInfo) (jumps : List (Nat × Int))
    (j : Nat) (i : Instruction) : Prop :=
  (alGet jumps j = none → ∃ raws,
      i.get_raw tbl ci (j : Int) none = .ok raws
      ∧ 1 ≤ raws.length ∧ raws.length ≤ 8)
  ∧ (∀ tgt, alGet jumps j = some tgt →
      ¬ i.opcode < tbl.HAVE_ARGUMENT
      ∧ i.opcode ∉ tbl.hasname ∧ i.opcode ∉ tbl.haslocal
      ∧ i.opcode ∉ tbl.hasconst ∧ i.opcode ∉ tbl.hascompare
      ∧ i.opcode ∉ tbl.hasfree ∧ i.arg.isLabel = true
      ∧ (i.opcode ∈ tbl.hasjrel ∨ i.opcode ∈ tbl.hasjabs)
      ∧ (i.opcode ∈ tbl.hasjrel → (j : Int) < tgt))

theorem mem_alSet_self {K V : Type} [DecidableEq K] :
    ∀ {l : List (K × V)} {k : K} {v : V} {p : K × V},
    p ∈ alSet l k v → p ∈ l ∨ p = (k, v) := by
  intro l
  induction l with
  | nil =>
      intro k v p hp
      simp only [alSet, List.mem_singleton] at hp
      exact Or.inr hp
  | cons q rest ih =>
      intro k v p hp
      obtain ⟨k0, v0⟩ := q
      by_cases he : k0 = k
      · subst he
        simp only [alSet, if_pos rfl] at hp
        rcases List.mem_cons.mp hp with rfl | hp
        · exact Or.inr rfl
        · exact Or.inl (List.mem_cons_of_mem _ hp)
      · simp only [alSet, he, ite_false, if_neg, Bool.false_eq_true] at hp
        rcases List.mem_cons.mp hp with rfl | hp
        · exact Or.inl (List.mem_cons_self _ _)
        · rcases ih hp with hp | hp
          · exact Or.inl (List.mem_cons_of_mem _ hp)
          · exact Or.inr hp

theorem mem_keys_alSet {K V : Type} [DecidableEq K] :
    ∀ {l : List (K × V)} {k k2 : K} {v : V},
    k2 ∈ (alSet l k v).map (·.1) ↔ k2 ∈ l.map (·.1) ∨ k2 = k := by
  intro l
  induction l with
  | nil =>
      intro k k2 v
      simp [alSet]
  | cons q rest ih =>
      intro k k2 v
      obtain ⟨k0, v0⟩ := q
      by_cases he : k0 = k
      · subst he
        simp only [alSet, ite_true, eq_self_iff_true, if_pos,
          List.map_cons, List.mem_cons]
        tauto
      · simp only [alSet, he, ite_false, if_neg, Bool.false_eq_true,
          List.map_cons, List.mem_cons, ih]
        tauto

/-- Every entry of `actual_targets = {o: o for o in jumps.values()}` maps a
key to itself. -/
theorem initTargets_self {jumps : List (Nat × Int)} :
    ∀ p ∈ initTargets jumps, p.1 = p.2 := by
  have hgen : ∀ (l : List (Nat × Int)) (acc : List (Int × Int)),
      (∀ p ∈ acc, p.1 = p.2) →
      ∀ p ∈ l.foldl (fun acc p => alSet acc p.2 p.2) acc, p.1 = p.2 := by
    intro l
    induction l with
    | nil => intro acc hacc; exact hacc
    | cons q rest ih =>
        intro acc hacc
        refine ih _ ?_
        intro p hp
        rcases mem_alSet_self hp with hp | hp
        · exact hacc p hp
        · rw [hp]
  exact hgen jumps [] (by simp)

theorem initTargets_key {jumps : List (Nat × Int)} :
    ∀ q ∈ jumps, q.2 ∈ (initTargets jumps).map (·.1) := by
  have hpres : ∀ (l : List (Nat × Int)) (acc : List (Int × Int)) (k : Int),
      k ∈ acc.map (·.1) →
      k ∈ (l.foldl (fun acc p => alSet acc p.2 p.2) acc).map (·.1) := by
    intro l
    induction l with
    | nil => intro acc k hk; exact hk
    | cons q rest ih =>
        intro acc k hk
        exact ih _ k (mem_keys_alSet.mpr (Or.inl hk))
  have hgen : ∀ (l : List (Nat × Int)) (acc : List (Int × Int)),
      ∀ q ∈ l, q.2 ∈ (l.foldl (fun acc p => alSet acc p.2 p.2) acc).map (·.1) := by
    intro l
    induction l with
    | nil => intro acc q hq; simp at hq
    | cons r rest ih =>
        intro acc q hq
        rcases List.mem_cons.mp hq with rfl | hq
        · exact hpres rest _ q.2 (mem_keys_alSet.mpr (Or.inr rfl))
        · exact ih _ q hq
  exact hgen jumps []

/-- `actual_targets` starts as the identity on the jump targets. -/
theorem initTargets_get_self {jumps : List (Nat × Int)} :
    ∀ q ∈ jumps, alGet (initTargets jumps) q.2 = some q.2 := by
  intro q hq
  obtain ⟨w, hw⟩ := Option.isSome_iff_exists.mp
    (alGet_isSome_iff.mpr (initTargets_key q hq))
  have hmem := alGet_mem hw
  have := initTargets_self _ hmem
  simp only at this
  rw [hw, ← this]

/-- `passStep` in one piece, once the target update and the `get_raw` result
are known. -/
theorem passStep_eq {tbl : DisTables} {ci : CodeInfo}
    {jumps : List (Nat × Int)} {line_starts : List (Nat × Option Int)}
    (st : PassState) (j : Nat) (i : Instruction)
    {t1 : List (Int × Int)} {raws : List RawIns}
    (ht1 : (if (alGet st.t (j : Int)).isSome
        then alSet st.t (j : Int) (st.raw.length : Int) else st.t) = t1)
    (hraw : i.get_raw tbl ci (j : Int)
        ((alGet jumps j).bind (fun tgt => alGet t1 tgt)) = .ok raws) :
    passStep tbl ci jumps line_starts st j i = .ok
      ⟨t1, st.raw ++ raws,
        (match alGet line_starts j with
         | some l => alSet st.lo (st.raw.length * 2) l
         | none => st.lo)⟩ := by
  subst ht1
  simp only [passStep, Bind.bind, Except.bind]
  rw [hraw]

/-- One step of two simultaneous passes from pointwise-ordered target maps:
both steps succeed, the maps stay pointwise ordered, above the initial map
and below the bound, and every instruction emits between 1 and 8 units,
monotonically in the incoming map. -/
theorem passStep_pair
    {tbl : DisTables} {ci : CodeInfo} {jumps : List (Nat × Int)}
    {line_starts : List (Nat × Option Int)} {n : Nat}
    {t0 : List (Int × Int)}
    (ht0self : ∀ p ∈ t0, p.1 = p.2)
    (ht0get : ∀ q ∈ jumps, alGet t0 q.2 = some q.2)
    (hjb : ∀ q ∈ jumps, 0 ≤ q.2 ∧ q.2 ≤ (n : Int))
    (hsize : 8 * n < 256 ^ 8)
    (j : Nat) (i : Instruction)
    (hgood : GoodIns tbl ci jumps j i)
    (hjn : j < n)
    (sta stb : PassState)
    (ha0 : tle t0 sta.t) (hb0 : tle t0 stb.t) (hab : tle sta.t stb.t)
    (hba : ∀ p ∈ sta.t, p.2 ≤ (8 * n : Int))
    (hbb : ∀ p ∈ stb.t, p.2 ≤ (8 * n : Int))
    (hja : j ≤ sta.raw.length) (hjbr : j ≤ stb.raw.length)
    (h8a : sta.raw.length ≤ 8 * j) (h8b : stb.raw.length ≤ 8 * j)
    (hlen : sta.raw.length ≤ stb.raw.length) :
    ∃ st1a st1b,
      passStep tbl ci jumps line_starts sta j i = .ok st1a
      ∧ passStep tbl ci jumps line_starts stb j i = .ok st1b
      ∧ tle t0 st1a.t ∧ tle t0 st1b.t ∧ tle st1a.t st1b.t
      ∧ (∀ p ∈ st1a.t, p.2 ≤ (8 * n : Int))
      ∧ (∀ p ∈ st1b.t, p.2 ≤ (8 * n : Int))
      ∧ j + 1 ≤ st1a.raw.length ∧ j + 1 ≤ st1b.raw.length
      ∧ st1a.raw.length ≤ 8 * (j + 1) ∧ st1b.raw.length ≤ 8 * (j + 1)
      ∧ st1a.raw.length ≤ st1b.raw.length := by
  have hp8 : (256 : Nat) ^ 8 = 18446744073709551616 := by norm_num
  rw [hp8] at hsize
  obtain ⟨t1a, t1b, het1a, het1b, f0a, f0b, fab, fba, fbb⟩ :
      ∃ t1a t1b,
        (if (alGet sta.t (j : Int)).isSome
          then alSet sta.t (j : Int) (sta.raw.length : Int) else sta.t) = t1a
        ∧ (if (alGet stb.t (j : Int)).isSome
          then alSet stb.t (j : Int) (stb.raw.length : Int) else stb.t) = t1b
        ∧ tle t0 t1a ∧ tle t0 t1b ∧ tle t1a t1b
        ∧ (∀ p ∈ t1a, p.2 ≤ (8 * n : Int))
        ∧ (∀ p ∈ t1b, p.2 ≤ (8 * n : Int)) := by
    have hkeysab := tle_keys hab
    by_cases hupd : (alGet sta.t (j : Int)).isSome
    · have hupdb : (alGet stb.t (j : Int)).isSome := by
        rw [alGet_isSome_iff] at hupd ⊢
        rw [← hkeysab]
        exact hupd
      have hkj : alGet t0 (j : Int) = some (j : Int) := by
        have hmem : (j : Int) ∈ t0.map (·.1) := by
          rw [tle_keys ha0]
          exact alGet_isSome_iff.mp hupd
        obtain ⟨w, hw⟩ := Option.isSome_iff_exists.mp
          (alGet_isSome_iff.mpr hmem)
        have := ht0self _ (alGet_mem hw)
        simp only at this
        rw [hw, ← this]
      have hrawa8 : (sta.raw.length : Int) ≤ (8 * n : Int) := by
        have : sta.raw.length ≤ 8 * n := by omega
        exact_mod_cast this
      have hrawb8 : (stb.raw.length : Int) ≤ (8 * n : Int) := by
        have : stb.raw.length ≤ 8 * n := by omega
        exact_mod_cast this
      refine ⟨_, _, by rw [if_pos hupd], by rw [if_pos hupdb],
        tle_alSet_right ha0 hkj (by exact_mod_cast hja),
        tle_alSet_right hb0 hkj (by exact_mod_cast hjbr),
        tle_alSet hab (by exact_mod_cast hlen),
        bound_alSet hba hrawa8, bound_alSet hbb hrawb8⟩
    · have hupdb : ¬ (alGet stb.t (j : Int)).isSome := by
        rw [alGet_isSome_iff] at hupd ⊢
        rw [← hkeysab]
        exact hupd
      exact ⟨_, _, by rw [if_neg hupd], by rw [if_neg hupdb],
        ha0, hb0, hab, hba, hbb⟩
  obtain ⟨rawsa, rawsb, hrawa, hrawb, hl1a, hl8a, hl1b, hl8b, hlmono⟩ :
      ∃ rawsa rawsb,
        i.get_raw tbl ci (j : Int)
            ((alGet jumps j).bind (fun tgt => alGet t1a tgt)) = .ok rawsa
        ∧ i.get_raw tbl ci (j : Int)
            ((alGet jumps j).bind (fun tgt => alGet t1b tgt)) = .ok rawsb
        ∧ 1 ≤ rawsa.length ∧ rawsa.length ≤ 8
        ∧ 1 ≤ rawsb.length ∧ rawsb.length ≤ 8
        ∧ rawsa.length ≤ rawsb.length := by
    cases hj : alGet jumps j with
    | none =>
        obtain ⟨raws, hraw, h1, h8⟩ := hgood.1 hj
        exact ⟨raws, raws, by simp only [Option.none_bind]; exact hraw,
          by simp only [Option.none_bind]; exact hraw,
          h1, h8, h1, h8, le_refl _⟩
    | some tgt =>
        obtain ⟨g1, g2, g3, g4, g5, g6, g7, g8, g9⟩ := hgood.2 tgt hj
        have hmemj : (j, tgt) ∈ jumps := alGet_mem hj
        have ht0tgt : alGet t0 tgt = some tgt := ht0get _ hmemj
        obtain ⟨jva, hjva, htja⟩ := tle_alGet f0a ht0tgt
        obtain ⟨jvb, hjvb, hjab2⟩ := tle_alGet fab hjva
        have hbja : jva ≤ (8 * n : Int) := fba _ (alGet_mem hjva)
        have hbjb : jvb ≤ (8 * n : Int) := fbb _ (alGet_mem hjvb)
        have htgt0 : 0 ≤ tgt := (hjb _ hmemj).1
        by_cases hjr : i.opcode ∈ tbl.hasjrel
        · have hfw : (j : Int) < tgt := g9 hjr
          have hnna : 0 ≤ jva - (j : Int) - 1 := by omega
          have hnnb : 0 ≤ jvb - (j : Int) - 1 := by omega
          have hga := @get_raw_jrel_ok tbl ci i g1 g2 g3 g4 g5 g6 g7 hjr
            (j : Int) jva hnna
          have hgb := @get_raw_jrel_ok tbl ci i g1 g2 g3 g4 g5 g6 g7 hjr
            (j : Int) jvb hnnb
          have hna8 : (jva - (j : Int) - 1).toNat ≤ 8 * n := by omega
          have hnb8 : (jvb - (j : Int) - 1).toNat ≤ 8 * n := by omega
          refine ⟨_, _, by simp only [Option.some_bind, hjva]; exact hga,
            by simp only [Option.some_bind, hjvb]; exact hgb,
            ?_, ?_, ?_, ?_, ?_⟩
          · rw [enc_length]
            exact chunkBytes_len_pos _
          · rw [enc_length]
            exact chunkBytes_len_le 8 (by omega) (by rw [hp8]; omega)
          · rw [enc_length]
            exact chunkBytes_len_pos _
          · rw [enc_length]
            exact chunkBytes_len_le 8 (by omega) (by rw [hp8]; omega)
          · rw [enc_length, enc_length]
            exact chunkBytes_len_mono (by omega)
        · have hjabs : i.opcode ∈ tbl.hasjabs := g8.resolve_left hjr
          have hnna : 0 ≤ jva := le_trans htgt0 htja
          have hnnb : 0 ≤ jvb := le_trans hnna hjab2
          have hga := @get_raw_jabs_ok tbl ci i g1 g2 g3 g4 g5 g6 hjr g7
            hjabs (j : Int) jva hnna
          have hgb := @get_raw_jabs_ok tbl ci i g1 g2 g3 g4 g5 g6 hjr g7
            hjabs (j : Int) jvb hnnb
          have hna8 : jva.toNat ≤ 8 * n := by omega
          have hnb8 : jvb.toNat ≤ 8 * n := by omega
          refine ⟨_, _, by simp only [Option.some_bind, hjva]; exact hga,
            by simp only [Option.some_bind, hjvb]; exact hgb,
            ?_, ?_, ?_, ?_, ?_⟩
          · rw [enc_length]
            exact chunkBytes_len_pos _
          · rw [enc_length]
            exact chunkBytes_len_le 8 (by omega) (by rw [hp8]; omega)
          · rw [enc_length]
            exact chunkBytes_len_pos _
          · rw [enc_length]
            exact chunkBytes_len_le 8 (by omega) (by rw [hp8]; omega)
          · rw [enc_length, enc_length]
            exact chunkBytes_len_mono (by omega)
  refine ⟨_, _, passStep_eq sta j i het1a hrawa, passStep_eq stb j i het1b hrawb,
    f0a, f0b, fab, fba, fbb, ?_, ?_, ?_, ?_, ?_⟩
  · simp only [List.length_append]
    omega
  · simp only [List.length_append]
    omega
  · simp only [List.length_append]
    omega
  · simp only [List.length_append]
    omega
  · simp only [List.length_append]
    omega

/-- Two simultaneous passes over the remaining instructions, from
pointwise-ordered states: both succeed and the outputs stay pointwise
ordered, above the initial target map, below the bound, with ordered raw
lengths. -/
theorem passGo_pair
    {tbl : DisTables} {ci : CodeInfo} {jumps : List (Nat × Int)}
    {line_starts : List (Nat × Option Int)} {n : Nat}
    {t0 : List (Int × Int)}
    (ht0self : ∀ p ∈ t0, p.1 = p.2)
    (ht0get : ∀ q ∈ jumps, alGet t0 q.2 = some q.2)
    (hjb : ∀ q ∈ jumps, 0 ≤ q.2 ∧ q.2 ≤ (n : Int))
    (hsize : 8 * n < 256 ^ 8) :
    ∀ (rest : List Instruction) (j : Nat) (sta stb : PassState),
    j + rest.length = n →
    (∀ k (hk : k < rest.length),
      GoodIns tbl ci jumps (j + k) (rest.get ⟨k, hk⟩)) →
    tle t0 sta.t → tle t0 stb.t → tle sta.t stb.t →
    (∀ p ∈ sta.t, p.2 ≤ (8 * n : Int)) →
    (∀ p ∈ stb.t, p.2 ≤ (8 * n : Int)) →
    j ≤ sta.raw.length → j ≤ stb.raw.length →
    sta.raw.length ≤ 8 * j → stb.raw.length ≤ 8 * j →
    sta.raw.length ≤ stb.raw.length →
    ∃ outa outb,
      passGo tbl ci jumps line_starts rest j sta = .ok outa
      ∧ passGo tbl ci jumps line_starts rest j stb = .ok outb
      ∧ tle t0 outa.t ∧ tle t0 outb.t ∧ tle outa.t outb.t
      ∧ (∀ p ∈ outa.t, p.2 ≤ (8 * n : Int))
      ∧ (∀ p ∈ outb.t, p.2 ≤ (8 * n : Int))
      ∧ outa.raw.length ≤ outb.raw.length := by
  intro rest
  induction rest with
  | nil =>
      intro j sta stb _ _ ha0 hb0 hab hba hbb _ _ _ _ hlen
      exact ⟨sta, stb, rfl, rfl, ha0, hb0, hab, hba, hbb, hlen⟩
  | cons i rest ih =>
      intro j sta stb hn hgood ha0 hb0 hab hba hbb hja hjbr h8a h8b hlen
      have hjn : j < n := by
        simp only [List.length_cons] at hn
        omega
      have hgood0 : GoodIns tbl ci jumps j i := by
        have := hgood 0 (by simp)
        simpa using this
      obtain ⟨st1a, st1b, hstepa, hstepb, f0a, f0b, fab, fba, fbb,
        hja1, hjb1, h8a1, h8b1, hlen1⟩ :=
        passStep_pair ht0self ht0get hjb hsize j i hgood0 hjn sta stb
          ha0 hb0 hab hba hbb hja hjbr h8a h8b hlen
      have hgood1 : ∀ k (hk : k < rest.length),
          GoodIns tbl ci jumps (j + 1 + k) (rest.get ⟨k, hk⟩) := by
        intro k hk
        have := hgood (k + 1) (by simp; omega)
        simp only [List.get_cons_succ] at this
        rw [show j + 1 + k = j + (k + 1) from by omega]
        exact this
      obtain ⟨outa, outb, hgoa, hgob, rest_f⟩ :=
        ih (j + 1) st1a st1b (by simp only [List.length_cons] at hn; omega)
          hgood1 f0a f0b fab fba fbb hja1 hjb1 h8a1 h8b1 hlen1
      refine ⟨outa, outb, ?_, ?_, rest_f⟩
      · simp only [passGo, Bind.bind, Except.bind]
        rw [hstepa]
        exact hgoa
      · simp only [passGo, Bind.bind, Except.bind]
        rw [hstepb]
        exact hgob

/-- A single pass succeeds and its output map dominates its input map
whenever the input dominates the initial targets (so "offsets only move
forward" holds between successive passes). -/
theorem passOnce_mono
    {tbl : DisTables} {ci : CodeInfo} {jumps : List (Nat × Int)}
    {line_starts : List (Nat × Option Int)} {ins : List Instruction}
    {t0 : List (Int × Int)}
    (ht0self : ∀ p ∈ t0, p.1 = p.2)
    (ht0get : ∀ q ∈ jumps, alGet t0 q.2 = some q.2)
    (hjb : ∀ q ∈ jumps, 0 ≤ q.2 ∧ q.2 ≤ (ins.length : Int))
    (hsize : 8 * ins.length < 256 ^ 8)
    (hgood : ∀ k (hk : k < ins.length),
      GoodIns tbl ci jumps k (ins.get ⟨k, hk⟩))
    {ta tb : List (Int × Int)}
    (ha0 : tle t0 ta) (hb0 : tle t0 tb) (hab : tle ta tb)
    (hba : ∀ p ∈ ta, p.2 ≤ (8 * ins.length : Int))
    (hbb : ∀ p ∈ tb, p.2 ≤ (8 * ins.length : Int)) :
    ∃ outa outb,
      passOnce tbl ci jumps line_starts ins ta = .ok outa
      ∧ passOnce tbl ci jumps line_starts ins tb = .ok outb
      ∧ tle t0 outa.t ∧ tle t0 outb.t ∧ tle outa.t outb.t
      ∧ (∀ p ∈ outa.t, p.2 ≤ (8 * ins.length : Int))
      ∧ (∀ p ∈ outb.t, p.2 ≤ (8 * ins.length : Int)) := by
  obtain ⟨outa, outb, hgoa, hgob, f1, f2, f3, f4, f5, _⟩ :=
    passGo_pair ht0self ht0get hjb hsize ins 0 ⟨ta, [], []⟩ ⟨tb, [], []⟩
      (by simp) (by intro k hk; simpa using hgood k hk)
      ha0 hb0 hab hba hbb (by simp) (by simp) (by simp) (by simp) (by simp)
  exact ⟨outa, outb, hgoa, hgob, f1, f2, f3, f4, f5⟩

/-- The fixed-point loop: with enough fuel (one pass per unit of remaining
headroom), the loop stops at a map that a further pass leaves unchanged, and
the final map dominates the starting one. -/
theorem assembleLoop_fix
    {tbl : DisTables} {ci : CodeInfo} {jumps : List (Nat × Int)}
    {line_starts : List (Nat × Option Int)} {ins : List Instruction}
    {t0 : List (Int × Int)}
    (ht0self : ∀ p ∈ t0, p.1 = p.2)
    (ht0get : ∀ q ∈ jumps, alGet t0 q.2 = some q.2)
    (hjb : ∀ q ∈ jumps, 0 ≤ q.2 ∧ q.2 ≤ (ins.length : Int))
    (hsize : 8 * ins.length < 256 ^ 8)
    (hgood : ∀ k (hk : k < ins.length),
      GoodIns tbl ci jumps k (ins.get ⟨k, hk⟩)) :
    ∀ (fuel : Nat) (t : List (Int × Int)),
    tmeasure (8 * ins.length : Int) t < fuel →
    tle t0 t → (∀ p ∈ t, p.2 ≤ (8 * ins.length : Int)) →
    (∀ st1, passOnce tbl ci jumps line_starts ins t = .ok st1 →
      tle t st1.t) →
    ∃ st, assembleLoop tbl ci jumps line_starts ins fuel t = .ok st
      ∧ passOnce tbl ci jumps line_starts ins st.t = .ok st
      ∧ tle t st.t := by
  intro fuel
  induction fuel with
  | zero =>
      intro t hfuel _ _ _
      omega
  | succ fuel ihf =>
      intro t hfuel h0t hbt hselfH
      obtain ⟨st1, st1b, hpass, hpassb, g1, g2, g3, g4, g5⟩ :=
        passOnce_mono ht0self ht0get hjb hsize hgood
          h0t h0t (tle_refl t) hbt hbt
      have hself : tle t st1.t := hselfH st1 hpass
      have hunfold : assembleLoop tbl ci jumps line_starts ins (fuel + 1) t
          = if st1.t = t then .ok st1
            else assembleLoop tbl ci jumps line_starts ins fuel st1.t := by
        simp only [assembleLoop, Bind.bind, Except.bind, hpass]
      by_cases hfix : st1.t = t
      · refine ⟨st1, ?_, ?_, ?_⟩
        · rw [hunfold, if_pos hfix]
        · rw [hfix]
          exact hpass
        · exact hself
      · have hmeas : tmeasure (8 * ins.length : Int) st1.t
            < tmeasure (8 * ins.length : Int) t :=
          tmeasure_lt hself (fun he => hfix he.symm) g4
        have hselfH2 : ∀ st2,
            passOnce tbl ci jumps line_starts ins st1.t = .ok st2 →
            tle st1.t st2.t := by
          intro st2 hst2
          obtain ⟨outa, outb, hgoa, hgob, _, _, k3, _, _⟩ :=
            passOnce_mono ht0self ht0get hjb hsize hgood
              h0t g1 hself hbt g4
          have hea : outa = st1 := by
            rw [hpass] at hgoa
            cases hgoa
            rfl
          have heb : outb = st2 := by
            rw [hst2] at hgob
            cases hgob
            rfl
          rw [← hea, ← heb]
          exact k3
        obtain ⟨st, hloop, hfixp, hle⟩ := ihf st1.t (by omega) g1 g4 hselfH2
        refine ⟨st, ?_, hfixp, tle_trans hself hle⟩
        rw [hunfold, if_neg hfix]
        exact hloop

theorem initTargets_val {jumps : List (Nat × Int)} :
    ∀ p ∈ initTargets jumps, ∃ q ∈ jumps, p.1 = q.2 := by
  have hgen : ∀ (l : List (Nat × Int)) (acc : List (Int × Int)),
      (∀ p ∈ acc, ∃ q ∈ jumps, p.1 = q.2) → (∀ q ∈ l, q ∈ jumps) →
      ∀ p ∈ l.foldl (fun acc p => alSet acc p.2 p.2) acc,
        ∃ q ∈ jumps, p.1 = q.2 := by
    intro l
    induction l with
    | nil => intro acc hacc _; exact hacc
    | cons r rest ih =>
        intro acc hacc hsub
        refine ih _ ?_ (fun q hq => hsub q (List.mem_cons_of_mem _ hq))
        intro p hp
        rcases mem_alSet_self hp with hp | hp
        · exact hacc p hp
        · exact ⟨r, hsub r (List.mem_cons_self _ _), by rw [hp]⟩
  exact hgen jumps [] (by simp) (fun q hq => hq)

/-- C3: the assembler's fixed-point layout loop terminates for every
well-formed graph.  Well-formedness: every jump target is a forward-bounded
offset within the code, the code is not astronomically large (the 8-byte
operand limit), and every instruction encodes — statically when it is not a
jump, and through the `hasjrel`/`hasjabs` branch (relative ones strictly
forward) when it is.  Then some number of passes reaches a map `st.t` that
one more pass leaves unchanged — the loop's exact exit condition
(basic_assembler.py:288) — and the final target offsets dominate the initial
ones pointwise (`tle`): offsets only move forward as extension prefixes are
added, which is what bounds the pass count. -/
theorem assemble_fixed_point_loop_terminates
    (tbl : DisTables) (ci : CodeInfo) (jumps : List (Nat × Int))
    (line_starts : List (Nat × Option Int)) (ins : List Instruction)
    (hjb : ∀ q ∈ jumps, 0 ≤ q.2 ∧ q.2 ≤ (ins.length : Int))
    (hsize : 8 * ins.length < 256 ^ 8)
    (hgood : ∀ k (hk : k < ins.length),
      GoodIns tbl ci jumps k (ins.get ⟨k, hk⟩)) :
    ∃ fuel st,
      assembleLoop tbl ci jumps line_starts ins fuel (initTargets jumps)
        = .ok st
      ∧ passOnce tbl ci jumps line_starts ins st.t = .ok st
      ∧ tle (initTargets jumps) st.t := by
  have hbound0 : ∀ p ∈ initTargets jumps, p.2 ≤ (8 * ins.length : Int) := by
    intro p hp
    obtain ⟨q, hq, hpq⟩ := initTargets_val p hp
    have h1 := initTargets_self p hp
    have h2 := (hjb q hq).2
    have h3 : (ins.length : Int) ≤ (8 * ins.length : Int) := by
      omega
    rw [← h1, hpq]
    exact h2.trans h3
  have hselfH : ∀ st1,
      passOnce tbl ci jumps line_starts ins (initTargets jumps) = .ok st1 →
      tle (initTargets jumps) st1.t := by
    intro st1 hst1
    obtain ⟨outa, _, hgoa, _, k1, _, _, _, _⟩ :=
      passOnce_mono initTargets_self initTargets_get_self hjb hsize hgood
        (tle_refl _) (tle_refl _) (tle_refl _) hbound0 hbound0
    have hea : outa = st1 := by
      rw [hst1] at hgoa
      cases hgoa
      rfl
    rw [← hea]
    exact k1
  obtain ⟨st, h1, h2, h3⟩ := assembleLoop_fix initTargets_self
    initTargets_get_self hjb hsize hgood
    (tmeasure (8 * ins.length : Int) (initTargets jumps) + 1)
    (initTargets jumps) (by omega) (tle_refl _) hbound0 hselfH
  exact ⟨_, st, h1, h2, h3⟩

/-- Witness for `assemble_fixed_point_loop_terminates`: a `JUMP_FORWARD` to
the following `RETURN_VALUE` under the CPython 3.10 tables. -/
theorem assemble_fixed_point_loop_terminates_witness :
    ∃ fuel st,
      assembleLoop cpython310 emptyCodeInfo [(0, 1)] []
          [⟨110, .vlabel 1 0⟩, ⟨83, .vnone⟩] fuel
          (initTargets [(0, 1)]) = .ok st
      ∧ passOnce cpython310 emptyCodeInfo [(0, 1)] []
          [⟨110, .vlabel 1 0⟩, ⟨83, .vnone⟩] st.t = .ok st
      ∧ tle (initTargets [(0, 1)]) st.t :=
  assemble_fixed_point_loop_terminates cpython310 emptyCodeInfo [(0, 1)] []
    [⟨110, .vlabel 1 0⟩, ⟨83, .vnone⟩]
    (by decide) (by norm_num)
    (by
      intro k hk
      match k with
      | 0 =>
          refine ⟨?_, ?_⟩
          · intro h
            simp [alGet] at h
          · intro tgt htgt
            have htgt2 : tgt = 1 := by
              simp [alGet] at htgt
              omega
            subst htgt2
            have hins : ([⟨110, .vlabel 1 0⟩,
                ⟨83, (.vnone : PyVal)⟩] : List Instruction).get ⟨0, hk⟩
                = ⟨110, .vlabel 1 0⟩ := rfl
            rw [hins]
            exact ⟨by decide, by decide, by decide, by decide, by decide,
              by decide, by decide, by decide, by decide⟩
      | 1 =>
          refine ⟨?_, ?_⟩
          · intro _
            exact ⟨[⟨83, none⟩], rfl, by decide, by decide⟩
          · intro tgt htgt
            simp [alGet] at htgt
      | n + 2 => exact absurd hk (by simp))

end AssembleTermination2

end BasicAssembler
